import Mathlib

/-!
Shallow embedding of `dijkstra_with_heap` from `task_3.py` of the
`goit-algo-fp` repository, together with theorems checking the
natural-language specification of the shortest-path engine against it.

Modelling conventions:
* Python `dict` values are association lists (`List (Vertex × α)`);
  lookup reads the first matching key, assignment updates the first
  matching key in place and appends a fresh key at the end, exactly as
  insertion-ordered Python dictionaries behave.
* `heapq` is modelled by its observable behaviour: the queue is the
  multiset of pushed `(distance, vertex)` entries and `heappop` returns
  the least entry under the lexicographic tuple order Python uses
  (distance first, then the vertex string).  Two distinct entries never
  compare equal, so this pop is exactly deterministic, as in Python.
* `float('infinity')` is `⊤` of `WithTop Int`; all pushed distances are
  integers, as in the source where weights are `int`.
* An uncaught Python `KeyError` is the `PyErr.keyError` result; the
  state at the moment the exception escapes is kept so that theorems can
  speak about the trace of the partial run.
* The loop is driven by explicit fuel; `runD` supplies fuel derived from
  the graph size, and termination (the fuel sufficing) is proved, not
  assumed.
* The state additionally records the number of pushes and pops and the
  list of relaxations that passed the visited check (`examined`), and
  threads the (never written) graph, so that claims about the run itself
  are statable.
-/

abbrev Vertex := String

abbrev Adj := List (Vertex × Int)

abbrev Graph := List (Vertex × Adj)

abbrev DVal := WithTop Int

abbrev DTable := List (Vertex × DVal)

/-- Python `d[k]` / `k in d`: first-match association-list lookup. -/
def lookupA {α : Type} : List (Vertex × α) → Vertex → Option α
  | [], _ => none
  | p :: rest, k => if k = p.1 then some p.2 else lookupA rest k

/-- Python `d[k] = v`: update the first matching key in place, append if absent. -/
def setA {α : Type} : List (Vertex × α) → Vertex → α → List (Vertex × α)
  | [], k, v => [(k, v)]
  | p :: rest, k, v => if k = p.1 then (p.1, v) :: rest else p :: setA rest k v

/-- Key list of an association list, in dictionary order. -/
def keysOf {α : Type} (l : List (Vertex × α)) : List Vertex := l.map Prod.fst

/-- Python exceptions the engine can raise: `KeyError(vertex)`. -/
inductive PyErr : Type
  | keyError : Vertex → PyErr
deriving DecidableEq, Repr

/-- Lexicographic order on heap entries, as Python compares `(int, str)` tuples. -/
def entryLE (a b : Int × Vertex) : Prop :=
  a.1 < b.1 ∨ (a.1 = b.1 ∧ a.2 ≤ b.2)

instance (a b : Int × Vertex) : Decidable (entryLE a b) := by
  unfold entryLE; infer_instance

/-- Least entry of the queue under the Python tuple order. -/
def findMinQ : List (Int × Vertex) → Option (Int × Vertex)
  | [] => none
  | e :: rest =>
    match findMinQ rest with
    | none => some e
    | some m => some (if entryLE e m then e else m)

/-- Python `heapq.heappop`: remove and return the least entry. -/
def popMinQ (q : List (Int × Vertex)) : Option ((Int × Vertex) × List (Int × Vertex)) :=
  match findMinQ q with
  | none => none
  | some e => some (e, q.erase e)

/-- Full state of one invocation of the engine. -/
structure St : Type where
  graph : Graph
  distances : DTable
  queue : List (Int × Vertex)
  visited : List Vertex
  pushes : Nat
  pops : Nat
  examined : List (Vertex × Vertex)
deriving DecidableEq, Repr

/-- Body of `for neighbor, weight in graph[current_vertex].items(): ...`
(lines 33–42 of `task_3.py`): skip visited neighbors, look the neighbor up
in the distance table (a missing key raises `KeyError`), relax and push on
improvement.  Relaxations that pass the visited check are recorded in
`examined`. -/
def relaxAll (v : Vertex) (d : Int) : List (Vertex × Int) → St → Except (Vertex × St) St
  | [], st => Except.ok st
  | (u, w) :: rest, st =>
    if u ∈ st.visited then relaxAll v d rest st
    else
      match lookupA st.distances u with
      | none => Except.error (u, { st with examined := st.examined ++ [(v, u)] })
      | some du =>
        if (((d + w : Int) : DVal) < du) then
          relaxAll v d rest
            { st with
              distances := setA st.distances u ((d + w : Int) : DVal),
              queue := (d + w, u) :: st.queue,
              pushes := st.pushes + 1,
              examined := st.examined ++ [(v, u)] }
        else relaxAll v d rest { st with examined := st.examined ++ [(v, u)] }

/-- Main loop of `dijkstra_with_heap` (lines 25–42): pop the least entry,
skip stale entries, mark the vertex visited, read its adjacency
(`graph[current_vertex]`, a missing key raises `KeyError`) and relax. -/
def loopD : Nat → St → Option (St × Option PyErr)
  | 0, _ => none
  | fuel + 1, st =>
    match popMinQ st.queue with
    | none => some (st, none)
    | some (e, q') =>
      if e.2 ∈ st.visited then
        loopD fuel { st with queue := q', pops := st.pops + 1 }
      else
        match lookupA st.graph e.2 with
        | none =>
          some ({ st with queue := q', pops := st.pops + 1, visited := e.2 :: st.visited },
                some (PyErr.keyError e.2))
        | some adj =>
          match relaxAll e.2 e.1 adj
              { st with queue := q', pops := st.pops + 1, visited := e.2 :: st.visited } with
          | Except.error (u, stE) => some (stE, some (PyErr.keyError u))
          | Except.ok st' => loopD fuel st'

/-- Lines 17–18: `distances = {v: float('infinity') for v in graph}; distances[start] = 0`. -/
def initDistances (g : Graph) (s : Vertex) : DTable :=
  setA (g.map fun p => (p.1, (⊤ : DVal))) s ((0 : Int) : DVal)

/-- Lines 17–23: the state just before the main loop. -/
def initSt (g : Graph) (s : Vertex) : St :=
  { graph := g, distances := initDistances g s, queue := [((0 : Int), s)],
    visited := [], pushes := 0, pops := 0, examined := [] }

/-- Out-degree of a vertex: length of `graph[v]`, `0` when absent. -/
def outDeg (g : Graph) (v : Vertex) : Nat := ((lookupA g v).getD []).length

/-- Total number of adjacency entries of the graph. -/
def edgeCount (g : Graph) : Nat := (g.map fun p => p.2.length).sum

/-- Pending work charged to the unvisited graph keys: out-degree plus one each. -/
def unvisitedCharge (g : Graph) (vis : List Vertex) : Nat :=
  (((keysOf g).filter fun v => decide (v ∉ vis)).map fun v => outDeg g v + 1).sum

/-- Termination measure: queue length plus, for every unvisited graph key,
its out-degree plus one. -/
def measureSt (st : St) : Nat :=
  st.queue.length + unvisitedCharge st.graph st.visited

/-- Whole-run wrapper: the loop on the initial state with sufficient fuel. -/
def runD (g : Graph) (s : Vertex) : Option (St × Option PyErr) :=
  loopD (measureSt (initSt g s) + 1) (initSt g s)

/-- The Python function `dijkstra_with_heap(graph, start)`: its returned
distance table on a normal run, or the escaping exception.  `none` would
mean fuel exhaustion; it is proved below never to occur. -/
def dijkstra_with_heap (g : Graph) (s : Vertex) : Option (Except PyErr DTable) :=
  (runD g s).map fun p =>
    match p.2 with
    | some e => Except.error e
    | none => Except.ok p.1.distances

/-- Every adjacency target mentioned by the graph is itself a key of the
graph (the closed-graph precondition of the spec). -/
def ClosedGraph (g : Graph) : Prop :=
  ∀ p ∈ g, ∀ e ∈ p.2, e.1 ∈ keysOf g

/-- Every edge weight of the graph is non-negative. -/
def NonnegGraph (g : Graph) : Prop :=
  ∀ p ∈ g, ∀ e ∈ p.2, (0 : Int) ≤ e.2

instance (g : Graph) : Decidable (ClosedGraph g) := by
  unfold ClosedGraph; infer_instance

instance (g : Graph) : Decidable (NonnegGraph g) := by
  unfold NonnegGraph; infer_instance

/-- The edge relation the adjacency lists describe. -/
def EdgeOf (g : Graph) (a b : Vertex) (w : Int) : Prop :=
  ∃ adj, lookupA g a = some adj ∧ (b, w) ∈ adj

/-- `IsPath g a c t`: some directed path of the graph leads from `a` to `c`
with total edge weight `t` (the empty path has weight `0`). -/
inductive IsPath (g : Graph) : Vertex → Vertex → Int → Prop
  | nil (a : Vertex) : IsPath g a a 0
  | cons {a b c : Vertex} {w t : Int} :
      EdgeOf g a b w → IsPath g b c t → IsPath g a c (w + t)

/-- Reachability along directed paths. -/
def Reachable (g : Graph) (a b : Vertex) : Prop := ∃ t, IsPath g a b t

/-- Value of a distance table at a vertex, `⊤` when the key is absent. -/
def tblVal (t : DTable) (v : Vertex) : DVal := (lookupA t v).getD ⊤

/-- State at the exit of the relaxation loop, whether or not an exception escaped. -/
def relaxOut : Except (Vertex × St) St → St
  | Except.ok st => st
  | Except.error p => p.2

/-- Out-degree sum of the unvisited graph keys. -/
def unvisitedDeg (g : Graph) (vis : List Vertex) : Nat :=
  (((keysOf g).filter fun v => decide (v ∉ vis)).map fun v => outDeg g v).sum

/-- Structural well-formedness facts preserved by every loop iteration on a
closed graph: the graph is untouched, the distance keys are the graph keys,
queue entries and visited vertices name graph keys, the visited list never
repeats a vertex, every iteration pops exactly one entry (`acct`), and the
pushes performed so far are bounded by the out-degrees of the visited part. -/
structure WInv (g : Graph) (st : St) : Prop where
  graphEq : st.graph = g
  keysD : keysOf st.distances = keysOf g
  queueKeys : ∀ e ∈ st.queue, e.2 ∈ keysOf g
  visKeys : ∀ v ∈ st.visited, v ∈ keysOf g
  visNodup : st.visited.Nodup
  acct : st.queue.length + st.pops = st.pushes + 1
  pushBound : st.pushes + unvisitedDeg g st.visited ≤ unvisitedDeg g []

/-- The Dijkstra correctness invariant, holding at every loop head of a run on
a closed non-negative-weight graph with start `s` present: visited vertices
carry their exact shortest distance; every out-edge of a visited vertex into
unvisited territory has been relaxed; every finite table value is the weight
of an actual path; every queue entry is backed by a path and dominates the
table; every unvisited vertex with a finite table value has its current value
in the queue; and `s` is visited as soon as the first iteration has run. -/
structure SInv (g : Graph) (s : Vertex) (st : St) : Prop where
  graphEq : st.graph = g
  keysD : keysOf st.distances = keysOf g
  visKeys : ∀ v ∈ st.visited, v ∈ keysOf g
  visFinal : ∀ v ∈ st.visited, ∃ dv : Int, tblVal st.distances v = (dv : DVal) ∧
    IsPath g s v dv ∧ ∀ t, IsPath g s v t → dv ≤ t
  relaxedInv : ∀ x ∈ st.visited, ∀ u w, EdgeOf g x u w → u ∉ st.visited →
    tblVal st.distances u ≤ tblVal st.distances x + (w : DVal)
  finiteHasPath : ∀ u : Vertex, ∀ du : Int, tblVal st.distances u = (du : DVal) →
    IsPath g s u du
  queueEntries : ∀ e ∈ st.queue, IsPath g s e.2 e.1 ∧ e.2 ∈ keysOf g ∧
    tblVal st.distances e.2 ≤ (e.1 : DVal)
  queueCover : ∀ u ∈ keysOf g, u ∉ st.visited → ∀ du : Int,
    tblVal st.distances u = (du : DVal) → (du, u) ∈ st.queue
  startCase : s ∈ st.visited ∨ (st.visited = [] ∧ st.queue = [((0 : Int), s)])

@[simp] theorem keysOf_nil {α : Type} : keysOf ([] : List (Vertex × α)) = [] := rfl

@[simp] theorem keysOf_cons {α : Type} (p : Vertex × α) (l : List (Vertex × α)) :
    keysOf (p :: l) = p.1 :: keysOf l := rfl

theorem lookupA_eq_none {α : Type} (l : List (Vertex × α)) (k : Vertex) :
    lookupA l k = none ↔ k ∉ keysOf l := by
  induction l with
  | nil => simp [lookupA, keysOf]
  | cons p rest ih =>
    by_cases h : k = p.1
    · simp [lookupA, h]
    · simp [lookupA, h, ih]

theorem lookupA_mem {α : Type} {l : List (Vertex × α)} {k : Vertex} {v : α}
    (h : lookupA l k = some v) : (k, v) ∈ l := by
  induction l with
  | nil => simp [lookupA] at h
  | cons p rest ih =>
    by_cases hk : k = p.1
    · simp [lookupA, hk] at h
      subst hk; simp [← h]
    · simp [lookupA, hk] at h
      exact List.mem_cons_of_mem _ (ih h)

theorem lookupA_isSome_of_mem {α : Type} {l : List (Vertex × α)} {k : Vertex}
    (h : k ∈ keysOf l) : ∃ v, lookupA l k = some v := by
  rcases hv : lookupA l k with _ | v
  · exact absurd ((lookupA_eq_none l k).1 hv) (by simp [h])
  · exact ⟨v, rfl⟩

theorem lookupA_setA_self {α : Type} (l : List (Vertex × α)) (k : Vertex) (v : α) :
    lookupA (setA l k v) k = some v := by
  induction l with
  | nil => simp [setA, lookupA]
  | cons p rest ih =>
    by_cases h : k = p.1 <;> simp [setA, lookupA, h, ih]

theorem lookupA_setA_ne {α : Type} (l : List (Vertex × α)) {k k' : Vertex} (v : α)
    (h : k' ≠ k) : lookupA (setA l k v) k' = lookupA l k' := by
  induction l with
  | nil => simp [setA, lookupA, h]
  | cons p rest ih =>
    by_cases hk : k = p.1
    · subst hk; simp [setA, lookupA, h]
    · by_cases hk' : k' = p.1 <;> simp [setA, lookupA, hk, hk', ih]

theorem keysOf_setA_of_mem {α : Type} {l : List (Vertex × α)} {k : Vertex} (v : α)
    (h : k ∈ keysOf l) : keysOf (setA l k v) = keysOf l := by
  induction l with
  | nil => simp at h
  | cons p rest ih =>
    by_cases hk : k = p.1
    · simp [setA, hk]
    · rw [keysOf_cons, List.mem_cons] at h
      rcases h with h | h
      · exact absurd h hk
      · simp [setA, hk, ih h]

theorem keysOf_setA_of_not_mem {α : Type} {l : List (Vertex × α)} {k : Vertex} (v : α)
    (h : k ∉ keysOf l) : keysOf (setA l k v) = keysOf l ++ [k] := by
  induction l with
  | nil => simp [setA]
  | cons p rest ih =>
    rw [keysOf_cons, List.mem_cons] at h
    push_neg at h
    simp [setA, h.1, ih h.2]

theorem mem_setA {α : Type} {l : List (Vertex × α)} {k : Vertex} {v : α} {p : Vertex × α}
    (h : p ∈ setA l k v) : p ∈ l ∨ p = (k, v) := by
  induction l with
  | nil => simp [setA] at h; simp [h]
  | cons q rest ih =>
    by_cases hk : k = q.1
    · subst hk
      simp [setA] at h
      rcases h with h | h
      · right; simp [h]
      · left; exact List.mem_cons_of_mem _ h
    · simp [setA, hk] at h
      rcases h with h | h
      · left; simp [h]
      · rcases ih h with h' | h'
        · left; exact List.mem_cons_of_mem _ h'
        · right; exact h'

theorem findMinQ_eq_none {q : List (Int × Vertex)} : findMinQ q = none ↔ q = [] := by
  cases q with
  | nil => simp [findMinQ]
  | cons e rest =>
    simp [findMinQ]
    rcases h : findMinQ rest with _ | m <;> simp

theorem findMinQ_mem {q : List (Int × Vertex)} {e : Int × Vertex}
    (h : findMinQ q = some e) : e ∈ q := by
  induction q with
  | nil => simp [findMinQ] at h
  | cons a rest ih =>
    rcases hm : findMinQ rest with _ | m
    · simp [findMinQ, hm] at h
      simp [← h]
    · simp [findMinQ, hm] at h
      by_cases hle : entryLE a m
      · simp [hle] at h; simp [← h]
      · simp [hle] at h
        exact List.mem_cons_of_mem _ (ih (by rw [hm, h]))

theorem findMinQ_fst_le {q : List (Int × Vertex)} :
    ∀ {e : Int × Vertex}, findMinQ q = some e → ∀ x ∈ q, e.1 ≤ x.1 := by
  induction q with
  | nil => intro e h; simp [findMinQ] at h
  | cons a rest ih =>
    intro e h
    rcases hm : findMinQ rest with _ | m
    · have hrest : rest = [] := findMinQ_eq_none.1 hm
      subst hrest
      simp [findMinQ] at h
      intro x hx
      simp at hx
      simp [← h, hx]
    · simp [findMinQ, hm] at h
      have ihm : ∀ x ∈ rest, m.1 ≤ x.1 := ih hm
      by_cases hle : entryLE a m
      · simp [hle] at h
        intro x hx
        rcases List.mem_cons.1 hx with hx | hx
        · simp [← h, hx]
        · have ham : a.1 ≤ m.1 := by
            rcases hle with h1 | h1
            · exact le_of_lt h1
            · exact le_of_eq h1.1
          rw [← h]
          exact le_trans ham (ihm x hx)
      · simp [hle] at h
        intro x hx
        rcases List.mem_cons.1 hx with hx | hx
        · have hma : ¬ a.1 < m.1 := fun hlt => hle (Or.inl hlt)
          rw [← h, hx]
          exact le_of_not_lt hma
        · rw [← h]
          exact ihm x hx

theorem popMinQ_eq_none {q : List (Int × Vertex)} : popMinQ q = none ↔ q = [] := by
  unfold popMinQ
  rcases h : findMinQ q with _ | e
  · simpa using findMinQ_eq_none.1 h
  · simp
    intro hq
    subst hq
    simp [findMinQ] at h

theorem popMinQ_some {q q' : List (Int × Vertex)} {e : Int × Vertex}
    (h : popMinQ q = some (e, q')) :
    e ∈ q ∧ q' = q.erase e ∧ ∀ x ∈ q, e.1 ≤ x.1 := by
  unfold popMinQ at h
  rcases hm : findMinQ q with _ | m
  · simp [hm] at h
  · simp [hm] at h
    rcases h with ⟨he, hq⟩
    subst he
    exact ⟨findMinQ_mem hm, hq.symm, findMinQ_fst_le hm⟩

theorem mem_keysOf_of_lookupA {α : Type} {l : List (Vertex × α)} {k : Vertex} {v : α}
    (h : lookupA l k = some v) : k ∈ keysOf l := by
  by_contra hc
  rw [(lookupA_eq_none l k).2 hc] at h
  exact Option.noConfusion h

theorem outDeg_eq {g : Graph} {v : Vertex} {adj : Adj} (h : lookupA g v = some adj) :
    outDeg g v = adj.length := by simp [outDeg, h]

theorem lookupA_map_top (g : Graph) (v : Vertex) :
    lookupA (g.map fun p => (p.1, (⊤ : DVal))) v
      = ((lookupA g v).map fun _ => (⊤ : DVal)) := by
  induction g with
  | nil => simp [lookupA]
  | cons p rest ih =>
    by_cases h : v = p.1
    · simp [lookupA, h]
    · simp [lookupA, h, ih]

theorem keysOf_map_top (g : Graph) :
    keysOf (g.map fun p => (p.1, (⊤ : DVal))) = keysOf g := by
  induction g with
  | nil => rfl
  | cons p rest ih =>
    rw [List.map_cons, keysOf_cons, keysOf_cons, ih]

theorem lookupA_initDistances_self (g : Graph) (s : Vertex) :
    lookupA (initDistances g s) s = some ((0 : Int) : DVal) :=
  lookupA_setA_self _ _ _

theorem lookupA_initDistances_ne (g : Graph) {s v : Vertex} (h : v ≠ s) :
    lookupA (initDistances g s) v = if v ∈ keysOf g then some (⊤ : DVal) else none := by
  unfold initDistances
  rw [lookupA_setA_ne _ _ h, lookupA_map_top]
  rcases hl : lookupA g v with _ | adj
  · simp [(lookupA_eq_none g v).1 hl]
  · simp [mem_keysOf_of_lookupA hl]

theorem keysOf_initDistances_of_mem {g : Graph} {s : Vertex} (h : s ∈ keysOf g) :
    keysOf (initDistances g s) = keysOf g := by
  unfold initDistances
  rw [keysOf_setA_of_mem _ (by rw [keysOf_map_top]; exact h), keysOf_map_top]

theorem keysOf_initDistances_of_not_mem {g : Graph} {s : Vertex} (h : s ∉ keysOf g) :
    keysOf (initDistances g s) = keysOf g ++ [s] := by
  unfold initDistances
  rw [keysOf_setA_of_not_mem _ (by rw [keysOf_map_top]; exact h), keysOf_map_top]

theorem relaxAll_const (v : Vertex) (d : Int) :
    ∀ (l : List (Vertex × Int)) (st : St),
      (relaxOut (relaxAll v d l st)).graph = st.graph ∧
      (relaxOut (relaxAll v d l st)).visited = st.visited ∧
      (relaxOut (relaxAll v d l st)).pops = st.pops ∧
      keysOf (relaxOut (relaxAll v d l st)).distances = keysOf st.distances := by
  intro l
  induction l with
  | nil => intro st; simp [relaxAll, relaxOut]
  | cons e rest ih =>
    intro st
    obtain ⟨u, w⟩ := e
    by_cases hu : u ∈ st.visited
    · simpa [relaxAll, hu] using ih st
    · rcases hdu : lookupA st.distances u with _ | du
      · simp [relaxAll, hu, hdu, relaxOut]
      · by_cases himp : ((d : DVal) + (w : DVal) < du)
        · have hk : u ∈ keysOf st.distances := mem_keysOf_of_lookupA hdu
          obtain ⟨c1, c2, c3, c4⟩ := ih { st with
              distances := setA st.distances u ((d + w : Int) : DVal),
              queue := (d + w, u) :: st.queue,
              pushes := st.pushes + 1,
              examined := st.examined ++ [(v, u)] }
          refine ⟨?_, ?_, ?_, ?_⟩
          · simpa [relaxAll, hu, hdu, himp] using c1
          · simpa [relaxAll, hu, hdu, himp] using c2
          · simpa [relaxAll, hu, hdu, himp] using c3
          · simp only [keysOf_setA_of_mem _ hk] at c4
            simpa [relaxAll, hu, hdu, himp] using c4
        · obtain ⟨c1, c2, c3, c4⟩ := ih { st with examined := st.examined ++ [(v, u)] }
          exact ⟨by simpa [relaxAll, hu, hdu, himp] using c1,
            by simpa [relaxAll, hu, hdu, himp] using c2,
            by simpa [relaxAll, hu, hdu, himp] using c3,
            by simpa [relaxAll, hu, hdu, himp] using c4⟩

theorem relaxAll_queue (v : Vertex) (d : Int) :
    ∀ (l : List (Vertex × Int)) (st : St),
      ∃ new : List (Int × Vertex),
        (relaxOut (relaxAll v d l st)).queue = new ++ st.queue ∧
        new.length ≤ l.length ∧
        (relaxOut (relaxAll v d l st)).pushes = st.pushes + new.length ∧
        ∀ e ∈ new, ∃ w, (e.2, w) ∈ l ∧ e.1 = d + w := by
  intro l
  induction l with
  | nil => intro st; exact ⟨[], by simp [relaxAll, relaxOut], by simp, by simp [relaxAll, relaxOut], by simp⟩
  | cons e rest ih =>
    intro st
    obtain ⟨u, w⟩ := e
    by_cases hu : u ∈ st.visited
    · obtain ⟨new, h1, h2, h3, h4⟩ := ih st
      refine ⟨new, by simpa [relaxAll, hu] using h1,
        by rw [List.length_cons]; exact Nat.le_succ_of_le h2,
        by simpa [relaxAll, hu] using h3, ?_⟩
      intro e he
      obtain ⟨w', hw1, hw2⟩ := h4 e he
      exact ⟨w', List.mem_cons_of_mem _ hw1, hw2⟩
    · rcases hdu : lookupA st.distances u with _ | du
      · exact ⟨[], by simp [relaxAll, hu, hdu, relaxOut], by simp,
          by simp [relaxAll, hu, hdu, relaxOut], by simp⟩
      · by_cases himp : ((d : DVal) + (w : DVal) < du)
        · obtain ⟨new, h1, h2, h3, h4⟩ := ih { st with
              distances := setA st.distances u ((d + w : Int) : DVal),
              queue := (d + w, u) :: st.queue,
              pushes := st.pushes + 1,
              examined := st.examined ++ [(v, u)] }
          simp at h1 h3
          refine ⟨new ++ [(d + w, u)], ?_, ?_, ?_, ?_⟩
          · simp [relaxAll, hu, hdu, himp]
            rw [h1]
          · simp only [List.length_append, List.length_cons, List.length_nil]
            omega
          · simp [relaxAll, hu, hdu, himp]
            rw [h3]
            omega
          · intro e he
            rcases List.mem_append.1 he with he | he
            · obtain ⟨w', hw1, hw2⟩ := h4 e he
              exact ⟨w', List.mem_cons_of_mem _ hw1, hw2⟩
            · simp at he
              exact ⟨w, by simp [he], by simp [he]⟩
        · obtain ⟨new, h1, h2, h3, h4⟩ := ih { st with examined := st.examined ++ [(v, u)] }
          simp at h1 h3
          refine ⟨new, by simpa [relaxAll, hu, hdu, himp] using h1,
            by rw [List.length_cons]; exact Nat.le_succ_of_le h2,
            by simpa [relaxAll, hu, hdu, himp] using h3, ?_⟩
          intro e he
          obtain ⟨w', hw1, hw2⟩ := h4 e he
          exact ⟨w', List.mem_cons_of_mem _ hw1, hw2⟩

theorem relaxAll_ok (v : Vertex) (d : Int) :
    ∀ (l : List (Vertex × Int)) (st : St),
      (∀ e ∈ l, e.1 ∈ st.visited ∨ e.1 ∈ keysOf st.distances) →
      ∃ st', relaxAll v d l st = Except.ok st' := by
  intro l
  induction l with
  | nil => intro st _; exact ⟨st, rfl⟩
  | cons e rest ih =>
    intro st hcl
    obtain ⟨u, w⟩ := e
    by_cases hu : u ∈ st.visited
    · obtain ⟨st', h⟩ := ih st fun e he => hcl e (List.mem_cons_of_mem _ he)
      exact ⟨st', by simpa [relaxAll, hu] using h⟩
    · have hk : u ∈ keysOf st.distances := by
        rcases hcl (u, w) (List.mem_cons_self _ _) with h | h
        · exact absurd h hu
        · exact h
      obtain ⟨du, hdu⟩ := lookupA_isSome_of_mem hk
      by_cases himp : ((d : DVal) + (w : DVal) < du)
      · have hcl' : ∀ e ∈ rest, e.1 ∈ st.visited ∨ e.1 ∈ keysOf st.distances :=
          fun e he => hcl e (List.mem_cons_of_mem _ he)
        obtain ⟨st', h⟩ := ih { st with
            distances := setA st.distances u ((d + w : Int) : DVal),
            queue := (d + w, u) :: st.queue,
            pushes := st.pushes + 1,
            examined := st.examined ++ [(v, u)] } (by
          intro e he
          rcases hcl' e he with h | h
          · exact Or.inl (by simpa using h)
          · exact Or.inr (by rw [keysOf_setA_of_mem _ hk]; simpa using h))
        exact ⟨st', by simpa [relaxAll, hu, hdu, himp] using h⟩
      · obtain ⟨st', h⟩ := ih { st with examined := st.examined ++ [(v, u)] } (by
          intro e he
          simpa using hcl e (List.mem_cons_of_mem _ he))
        exact ⟨st', by simpa [relaxAll, hu, hdu, himp] using h⟩

theorem sum_filter_not_mem_le (f : Vertex → Nat) (v : Vertex) (vis : List Vertex) :
    ∀ ks : List Vertex,
      ((ks.filter fun x => decide (x ∉ v :: vis)).map f).sum ≤
        ((ks.filter fun x => decide (x ∉ vis)).map f).sum := by
  intro ks
  induction ks with
  | nil => simp
  | cons k rest ih =>
    by_cases h1 : k ∈ vis
    · have h2 : k ∈ v :: vis := List.mem_cons_of_mem _ h1
      rw [List.filter_cons_of_neg (by simp; intro _; exact h1),
        List.filter_cons_of_neg (by simpa using h1)]
      exact ih
    · by_cases h2 : k = v
      · have h3 : k ∈ v :: vis := by simp [h2]
        rw [List.filter_cons_of_neg (by simp; intro hne; exact absurd h2 hne),
          List.filter_cons_of_pos (by simpa using h1), List.map_cons, List.sum_cons]
        exact le_trans ih (Nat.le_add_left _ _)
      · have h3 : k ∉ v :: vis := by simp [h1, h2]
        rw [List.filter_cons_of_pos (by simpa using h3),
          List.filter_cons_of_pos (by simpa using h1), List.map_cons, List.sum_cons,
          List.map_cons, List.sum_cons]
        exact Nat.add_le_add_left ih _

theorem charge_cons_aux (f : Vertex → Nat) (v : Vertex) (vis : List Vertex) (hnv : v ∉ vis) :
    ∀ ks : List Vertex, v ∈ ks →
      ((ks.filter fun x => decide (x ∉ v :: vis)).map f).sum + f v ≤
        ((ks.filter fun x => decide (x ∉ vis)).map f).sum := by
  intro ks
  induction ks with
  | nil => intro h; simp at h
  | cons k rest ih =>
    intro hv
    by_cases hkv : k = v
    · subst hkv
      have hL : k ∈ k :: vis := List.mem_cons_self _ _
      rw [List.filter_cons_of_neg (by simp),
        List.filter_cons_of_pos (by simpa using hnv), List.map_cons, List.sum_cons]
      have := sum_filter_not_mem_le f k vis rest
      omega
    · rcases List.mem_cons.1 hv with h | h
      · exact absurd h.symm hkv
      · by_cases hkvis : k ∈ vis
        · have h2 : k ∈ v :: vis := List.mem_cons_of_mem _ hkvis
          rw [List.filter_cons_of_neg (by simp; intro _; exact hkvis),
            List.filter_cons_of_neg (by simpa using hkvis)]
          exact ih h
        · have h3 : k ∉ v :: vis := by simp [hkvis, hkv]
          rw [List.filter_cons_of_pos (by simpa using h3),
            List.filter_cons_of_pos (by simpa using hkvis), List.map_cons, List.sum_cons,
            List.map_cons, List.sum_cons]
          have := ih h
          omega

theorem unvisitedCharge_cons {g : Graph} {vis : List Vertex} {v : Vertex}
    (hv : v ∈ keysOf g) (hnv : v ∉ vis) :
    unvisitedCharge g (v :: vis) + (outDeg g v + 1) ≤ unvisitedCharge g vis :=
  charge_cons_aux (fun x => outDeg g x + 1) v vis hnv (keysOf g) hv

theorem loopD_total : ∀ (fuel : Nat) (st : St), measureSt st < fuel →
    ∃ out, loopD fuel st = some out := by
  intro fuel
  induction fuel with
  | zero => intro st h; exact absurd h (Nat.not_lt_zero _)
  | succ n ih =>
    intro st hm
    rcases hpop : popMinQ st.queue with _ | ep
    · exact ⟨(st, none), by simp [loopD, hpop]⟩
    · obtain ⟨e, q'⟩ := ep
      obtain ⟨hmem, hq', hmin⟩ := popMinQ_some hpop
      have hqpos : 0 < st.queue.length := List.length_pos_of_mem hmem
      have hlen : q'.length + 1 = st.queue.length := by
        rw [hq', List.length_erase_of_mem hmem]
        omega
      unfold measureSt at hm
      by_cases hv : e.2 ∈ st.visited
      · have hm' : measureSt { st with queue := q', pops := st.pops + 1 } < n := by
          show q'.length + unvisitedCharge st.graph st.visited < n
          omega
        obtain ⟨out, hout⟩ := ih _ hm'
        exact ⟨out, by simp [loopD, hpop, hv]; exact hout⟩
      · rcases hlook : lookupA st.graph e.2 with _ | adj
        · refine ⟨({ st with queue := q', pops := st.pops + 1, visited := e.2 :: st.visited }, some (PyErr.keyError e.2)), ?_⟩
          simp [loopD, hpop, hv, hlook]
        · cases hrel : relaxAll e.2 e.1 adj
              ({ st with queue := q', pops := st.pops + 1, visited := e.2 :: st.visited }) with
          | error p =>
            obtain ⟨u, stE⟩ := p
            refine ⟨(stE, some (PyErr.keyError u)), ?_⟩
            simp [loopD, hpop, hv, hlook, hrel]
          | ok st₃ =>
            have hout3 : relaxOut (relaxAll e.2 e.1 adj { st with queue := q', pops := st.pops + 1, visited := e.2 :: st.visited }) = st₃ := by
              rw [hrel]; rfl
            obtain ⟨cg, cv, _, _⟩ := relaxAll_const e.2 e.1 adj
              { st with queue := q', pops := st.pops + 1, visited := e.2 :: st.visited }
            obtain ⟨new, hq3, hnl, _, _⟩ := relaxAll_queue e.2 e.1 adj
              { st with queue := q', pops := st.pops + 1, visited := e.2 :: st.visited }
            rw [hout3] at cg cv hq3
            have cg' : st₃.graph = st.graph := cg
            have cv' : st₃.visited = e.2 :: st.visited := cv
            have hq3' : st₃.queue = new ++ q' := hq3
            have hkey : e.2 ∈ keysOf st.graph := mem_keysOf_of_lookupA hlook
            have hdeg : outDeg st.graph e.2 = adj.length := outDeg_eq hlook
            have hcharge := unvisitedCharge_cons hkey hv
            rw [hdeg] at hcharge
            have hm3 : measureSt st₃ < n := by
              unfold measureSt
              rw [cg', cv', hq3']
              simp only [List.length_append]
              omega
            obtain ⟨out, hout⟩ := ih _ hm3
            exact ⟨out, by simp [loopD, hpop, hv, hlook, hrel]; exact hout⟩

theorem runD_isSome (g : Graph) (s : Vertex) : ∃ out, runD g s = some out :=
  loopD_total _ _ (Nat.lt_succ_self _)

theorem relaxAll_visited_dist (v : Vertex) (d : Int) :
    ∀ (l : List (Vertex × Int)) (st : St) (u : Vertex), u ∈ st.visited →
      lookupA (relaxOut (relaxAll v d l st)).distances u = lookupA st.distances u := by
  intro l
  induction l with
  | nil => intro st u _; rfl
  | cons e rest ih =>
    intro st u hu
    obtain ⟨u', w⟩ := e
    by_cases hu' : u' ∈ st.visited
    · simpa [relaxAll, hu'] using ih st u hu
    · rcases hdu : lookupA st.distances u' with _ | du
      · simp [relaxAll, hu', hdu, relaxOut]
      · by_cases himp : ((d : DVal) + (w : DVal) < du)
        · have hne : u ≠ u' := fun h => hu' (h ▸ hu)
          have h2 := ih { st with
              distances := setA st.distances u' ((d + w : Int) : DVal),
              queue := (d + w, u') :: st.queue,
              pushes := st.pushes + 1,
              examined := st.examined ++ [(v, u')] } u hu
          rw [show lookupA (setA st.distances u' ((d + w : Int) : DVal)) u
              = lookupA st.distances u from lookupA_setA_ne _ _ hne] at h2
          simpa [relaxAll, hu', hdu, himp] using h2
        · simpa [relaxAll, hu', hdu, himp] using
            ih { st with examined := st.examined ++ [(v, u')] } u hu

theorem loopD_graph : ∀ (fuel : Nat) (st st' : St) (e? : Option PyErr),
    loopD fuel st = some (st', e?) → st'.graph = st.graph := by
  intro fuel
  induction fuel with
  | zero => intro st st' e? h; simp [loopD] at h
  | succ n ih =>
    intro st st' e? h
    rcases hpop : popMinQ st.queue with _ | ep
    · simp [loopD, hpop] at h
      rw [← h.1]
    · obtain ⟨e, q'⟩ := ep
      by_cases hv : e.2 ∈ st.visited
      · simp [loopD, hpop, hv] at h
        exact ih { st with queue := q', pops := st.pops + 1 } st' e? h
      · rcases hlook : lookupA st.graph e.2 with _ | adj
        · simp [loopD, hpop, hv, hlook] at h
          rw [← h.1]
        · cases hrel : relaxAll e.2 e.1 adj ({ st with queue := q', pops := st.pops + 1, visited := e.2 :: st.visited }) with
          | error p =>
            obtain ⟨u, stE⟩ := p
            have hout3 : relaxOut (relaxAll e.2 e.1 adj { st with queue := q', pops := st.pops + 1, visited := e.2 :: st.visited }) = stE := by
              rw [hrel]; rfl
            obtain ⟨cg, _, _, _⟩ := relaxAll_const e.2 e.1 adj
              { st with queue := q', pops := st.pops + 1, visited := e.2 :: st.visited }
            rw [hout3] at cg
            simp [loopD, hpop, hv, hlook, hrel] at h
            rw [← h.1]
            exact cg
          | ok st₃ =>
            have hout3 : relaxOut (relaxAll e.2 e.1 adj { st with queue := q', pops := st.pops + 1, visited := e.2 :: st.visited }) = st₃ := by
              rw [hrel]; rfl
            obtain ⟨cg, _, _, _⟩ := relaxAll_const e.2 e.1 adj
              { st with queue := q', pops := st.pops + 1, visited := e.2 :: st.visited }
            rw [hout3] at cg
            simp [loopD, hpop, hv, hlook, hrel] at h
            rw [ih _ _ _ h]
            exact cg

/-- C3: for every graph and start vertex not present as a key, the engine fails:
the run raises the Python `KeyError(start)` — the concrete form the spec's
`VertexNotFound` failure takes — at the `graph[current_vertex]` lookup of the
first loop iteration, and no (partial) distance table is returned. -/
theorem dijkstra_missing_start_fails {g : Graph} {s : Vertex} (h : s ∉ keysOf g) :
    dijkstra_with_heap g s = some (Except.error (PyErr.keyError s)) := by
  have hlook : lookupA g s = none := (lookupA_eq_none g s).2 h
  unfold dijkstra_with_heap runD
  simp [loopD, popMinQ, findMinQ, initSt, hlook]

/-- C3 exercised at the concrete input of spec Scenario 5. -/
theorem dijkstra_missing_start_fails_case :
    ("Z" ∉ keysOf ([("A", [])] : Graph)) ∧
      dijkstra_with_heap [("A", [])] "Z" = some (Except.error (PyErr.keyError "Z")) :=
  ⟨by decide, dijkstra_missing_start_fails (by decide)⟩

/-- C9: the input graph, threaded through the whole run as state, comes out of
the run identical to what went in — key list, adjacency mappings and weights —
whether the run ends normally or with an exception; the engine only ever reads
it.  Being a pure function of its two arguments, the call has no observable
effect beyond its returned table. -/
theorem dijkstra_preserves_graph {g : Graph} {s : Vertex} {st : St} {e? : Option PyErr}
    (h : runD g s = some (st, e?)) : st.graph = g :=
  loopD_graph _ _ _ _ h

/-- C9 exercised on a concrete completed run. -/
theorem dijkstra_preserves_graph_case :
    runD [("A", [])] "A" = some (St.mk [("A", [])] [("A", ((0 : Int) : DVal))] [] ["A"] 0 1 [], none) ∧
      (St.mk [("A", [])] [("A", ((0 : Int) : DVal))] [] ["A"] 0 1 []).graph = [("A", [])] := by
  have h : runD [("A", [])] "A"
      = some (St.mk [("A", [])] [("A", ((0 : Int) : DVal))] [] ["A"] 0 1 [], none) := by rfl
  exact ⟨h, dijkstra_preserves_graph h⟩

theorem unvisitedDeg_cons {g : Graph} {vis : List Vertex} {v : Vertex}
    (hv : v ∈ keysOf g) (hnv : v ∉ vis) :
    unvisitedDeg g (v :: vis) + outDeg g v ≤ unvisitedDeg g vis :=
  charge_cons_aux (fun x => outDeg g x) v vis hnv (keysOf g) hv

theorem sum_outDeg_eq : ∀ g : Graph, (keysOf g).Nodup →
    ((keysOf g).map fun v => outDeg g v).sum = edgeCount g := by
  intro g
  induction g with
  | nil => intro _; rfl
  | cons p rest ih =>
    intro hnd
    rw [keysOf_cons] at hnd
    obtain ⟨hp, hnd'⟩ := List.nodup_cons.1 hnd
    rw [keysOf_cons, List.map_cons, List.sum_cons]
    have h1 : outDeg (p :: rest) p.1 = p.2.length := by simp [outDeg, lookupA]
    have h2 : (keysOf rest).map (fun v => outDeg (p :: rest) v)
        = (keysOf rest).map fun v => outDeg rest v := by
      apply List.map_congr_left
      intro a ha
      have hne : a ≠ p.1 := fun h => hp (h ▸ ha)
      simp [outDeg, lookupA, hne]
    rw [h1, h2, ih hnd']
    simp [edgeCount]

theorem unvisitedDeg_nil_eq {g : Graph} (hnd : (keysOf g).Nodup) :
    unvisitedDeg g [] = edgeCount g := by
  unfold unvisitedDeg
  rw [show ((keysOf g).filter fun v => decide (v ∉ ([] : List Vertex))) = keysOf g by
    simp]
  exact sum_outDeg_eq g hnd

theorem loopD_winv {g : Graph} (hg : ClosedGraph g) :
    ∀ (fuel : Nat) (st : St), WInv g st →
      ∀ st' e?, loopD fuel st = some (st', e?) →
        e? = none ∧ st'.queue = [] ∧ WInv g st' := by
  intro fuel
  induction fuel with
  | zero => intro st _ st' e? h; simp [loopD] at h
  | succ n ih =>
    intro st hw st' e? h
    rcases hpop : popMinQ st.queue with _ | ep
    · simp [loopD, hpop] at h
      obtain ⟨h1, h2⟩ := h
      refine ⟨h2.symm, ?_, ?_⟩
      · rw [← h1]; exact popMinQ_eq_none.1 hpop
      · rw [← h1]; exact hw
    · obtain ⟨e, q'⟩ := ep
      obtain ⟨hmem, hq', hmin⟩ := popMinQ_some hpop
      have hqpos : 0 < st.queue.length := List.length_pos_of_mem hmem
      have hlen : q'.length + 1 = st.queue.length := by
        rw [hq', List.length_erase_of_mem hmem]; omega
      have hq'sub : ∀ x ∈ q', x ∈ st.queue := by
        intro x hx; rw [hq'] at hx; exact List.mem_of_mem_erase hx
      by_cases hv : e.2 ∈ st.visited
      · simp [loopD, hpop, hv] at h
        refine ih { st with queue := q', pops := st.pops + 1 } ?_ st' e? h
        refine ⟨hw.graphEq, hw.keysD, fun x hx => hw.queueKeys x (hq'sub x hx),
          hw.visKeys, hw.visNodup, ?_, hw.pushBound⟩
        show q'.length + (st.pops + 1) = st.pushes + 1
        have := hw.acct
        omega
      · have hkey : e.2 ∈ keysOf g := hw.queueKeys e hmem
        have hkeyg : e.2 ∈ keysOf st.graph := by rw [hw.graphEq]; exact hkey
        obtain ⟨adj, hlook⟩ := lookupA_isSome_of_mem hkeyg
        have hlookg : lookupA g e.2 = some adj := by rw [← hw.graphEq]; exact hlook
        have hadjmem : (e.2, adj) ∈ g := lookupA_mem hlookg
        have hadjkeys : ∀ ev ∈ adj, ev.1 ∈ keysOf g := fun ev hev => hg _ hadjmem ev hev
        obtain ⟨st₃, hrel⟩ := relaxAll_ok e.2 e.1 adj
          { st with queue := q', pops := st.pops + 1, visited := e.2 :: st.visited }
          (fun ev hev => Or.inr (by
            show ev.1 ∈ keysOf st.distances
            rw [hw.keysD]; exact hadjkeys ev hev))
        have hout3 : relaxOut (relaxAll e.2 e.1 adj { st with queue := q', pops := st.pops + 1, visited := e.2 :: st.visited }) = st₃ := by
          rw [hrel]; rfl
        obtain ⟨cg, cv, cp, ck⟩ := relaxAll_const e.2 e.1 adj
          { st with queue := q', pops := st.pops + 1, visited := e.2 :: st.visited }
        obtain ⟨new, hq3, hnl, hpush3, hnewmem⟩ := relaxAll_queue e.2 e.1 adj
          { st with queue := q', pops := st.pops + 1, visited := e.2 :: st.visited }
        rw [hout3] at cg cv cp ck hq3 hpush3
        have cg' : st₃.graph = st.graph := cg
        have cv' : st₃.visited = e.2 :: st.visited := cv
        have cp' : st₃.pops = st.pops + 1 := cp
        have ck' : keysOf st₃.distances = keysOf st.distances := ck
        have hq3' : st₃.queue = new ++ q' := hq3
        have hpush3' : st₃.pushes = st.pushes + new.length := hpush3
        have hdeg : outDeg g e.2 = adj.length := outDeg_eq hlookg
        have hud := unvisitedDeg_cons hkey hv
        simp [loopD, hpop, hv, hlook, hrel] at h
        refine ih st₃ ?_ st' e? h
        refine ⟨by rw [cg']; exact hw.graphEq, by rw [ck']; exact hw.keysD,
          ?_, ?_, ?_, ?_, ?_⟩
        · intro x hx
          rw [hq3'] at hx
          rcases List.mem_append.1 hx with hx | hx
          · obtain ⟨w, hw1, _⟩ := hnewmem x hx
            exact hadjkeys (x.2, w) hw1
          · exact hw.queueKeys x (hq'sub x hx)
        · intro x hx
          rw [cv'] at hx
          rcases List.mem_cons.1 hx with hx | hx
          · rw [hx]; exact hkey
          · exact hw.visKeys x hx
        · rw [cv']
          exact List.nodup_cons.2 ⟨hv, hw.visNodup⟩
        · rw [hq3', cp', hpush3', List.length_append]
          have := hw.acct
          omega
        · rw [hpush3', cv']
          have := hw.pushBound
          omega

theorem runD_closed_ok {g : Graph} {s : Vertex} (hg : ClosedGraph g) (hs : s ∈ keysOf g) :
    ∃ st, runD g s = some (st, none) ∧ st.queue = [] ∧ WInv g st := by
  obtain ⟨⟨st, e?⟩, hout⟩ := runD_isSome g s
  have hwi : WInv g (initSt g s) := by
    refine ⟨rfl, keysOf_initDistances_of_mem hs, ?_, ?_, ?_, ?_, ?_⟩
    · intro e he
      simp [initSt] at he
      rw [show e.2 = s by rw [he]]
      exact hs
    · intro v hv; simp [initSt] at hv
    · simp [initSt]
    · simp [initSt]
    · simp [initSt]
  obtain ⟨h1, h2, h3⟩ := loopD_winv hg _ _ hwi st e? hout
  exact ⟨st, by rw [← h1]; exact hout, h2, h3⟩

/-- C8: the engine performs no edge-weight validation.  On every graph whose
adjacency targets are all graph keys and whose start vertex is a key — even
when some edge weight is negative — the run raises no error of any kind,
terminates within the proven fuel bound, and returns a distance table. -/
theorem dijkstra_no_weight_validation {g : Graph} {s : Vertex}
    (hcl : ClosedGraph g) (hs : s ∈ keysOf g)
    (_hneg : ∃ p ∈ g, ∃ e ∈ p.2, e.2 < (0 : Int)) :
    ∃ t, dijkstra_with_heap g s = some (Except.ok t) := by
  obtain ⟨st, h1, _, _⟩ := runD_closed_ok hcl hs
  exact ⟨st.distances, by simp [dijkstra_with_heap, h1]⟩

/-- C8 exercised on a concrete graph with a negative edge weight. -/
theorem dijkstra_no_weight_validation_case :
    (ClosedGraph [("A", [("B", -5)]), ("B", [("A", -2)])] ∧
        "A" ∈ keysOf ([("A", [("B", -5)]), ("B", [("A", -2)])] : Graph) ∧
        (∃ p ∈ ([("A", [("B", -5)]), ("B", [("A", -2)])] : Graph), ∃ e ∈ p.2, e.2 < (0 : Int))) ∧
      ∃ t, dijkstra_with_heap [("A", [("B", -5)]), ("B", [("A", -2)])] "A" = some (Except.ok t) :=
  ⟨⟨by decide, by decide, by decide⟩,
    dijkstra_no_weight_validation (by decide) (by decide) (by decide)⟩

theorem loopD_start (s : Vertex) :
    ∀ (fuel : Nat) (st : St),
      lookupA st.distances s = some ((0 : Int) : DVal) →
      (s ∈ st.visited ∨ (st.visited = [] ∧ st.queue = [((0 : Int), s)])) →
      ∀ st' e?, loopD fuel st = some (st', e?) →
        lookupA st'.distances s = some ((0 : Int) : DVal) := by
  intro fuel
  induction fuel with
  | zero => intro st _ _ st' e? h; simp [loopD] at h
  | succ n ih =>
    intro st hd hvis st' e? h
    rcases hpop : popMinQ st.queue with _ | ep
    · simp [loopD, hpop] at h
      rw [← h.1]; exact hd
    · obtain ⟨e, q'⟩ := ep
      obtain ⟨hmem, hq', hmin⟩ := popMinQ_some hpop
      by_cases hvv : e.2 ∈ st.visited
      · simp [loopD, hpop, hvv] at h
        refine ih { st with queue := q', pops := st.pops + 1 } hd ?_ st' e? h
        rcases hvis with hsv | ⟨hnil, _⟩
        · exact Or.inl hsv
        · rw [hnil] at hvv; simp at hvv
      · have hsvis2 : s ∈ e.2 :: st.visited := by
          rcases hvis with hsv | ⟨hnil, hq⟩
          · exact List.mem_cons_of_mem _ hsv
          · rw [hq] at hmem
            simp at hmem
            rw [show s = e.2 by rw [hmem]]
            exact List.mem_cons_self _ _
        rcases hlook : lookupA st.graph e.2 with _ | adj
        · simp [loopD, hpop, hvv, hlook] at h
          rw [← h.1]
          exact hd
        · cases hrel : relaxAll e.2 e.1 adj ({ st with queue := q', pops := st.pops + 1, visited := e.2 :: st.visited }) with
          | error p =>
            obtain ⟨u, stE⟩ := p
            have hout3 : relaxOut (relaxAll e.2 e.1 adj { st with queue := q', pops := st.pops + 1, visited := e.2 :: st.visited }) = stE := by
              rw [hrel]; rfl
            have hpres := relaxAll_visited_dist e.2 e.1 adj
              { st with queue := q', pops := st.pops + 1, visited := e.2 :: st.visited } s hsvis2
            rw [hout3] at hpres
            simp [loopD, hpop, hvv, hlook, hrel] at h
            rw [← h.1, hpres]
            exact hd
          | ok st₃ =>
            have hout3 : relaxOut (relaxAll e.2 e.1 adj { st with queue := q', pops := st.pops + 1, visited := e.2 :: st.visited }) = st₃ := by
              rw [hrel]; rfl
            have hpres := relaxAll_visited_dist e.2 e.1 adj
              { st with queue := q', pops := st.pops + 1, visited := e.2 :: st.visited } s hsvis2
            obtain ⟨_, cv, _, _⟩ := relaxAll_const e.2 e.1 adj
              { st with queue := q', pops := st.pops + 1, visited := e.2 :: st.visited }
            rw [hout3] at hpres cv
            have hd3 : lookupA st₃.distances s = some ((0 : Int) : DVal) := by
              rw [hpres]; exact hd
            have hvis3 : s ∈ st₃.visited := by
              have cv' : st₃.visited = e.2 :: st.visited := cv
              rw [cv']; exact hsvis2
            simp [loopD, hpop, hvv, hlook, hrel] at h
            exact ih st₃ hd3 (Or.inl hvis3) st' e? h

/-- C2: on every graph whose adjacency targets are all graph keys and whose
start vertex is a key — with arbitrary, possibly negative, edge weights — the
run completes and the returned table maps the start vertex to `0`: start is
finalized on the very first pop and finalized vertices are never relaxed. -/
theorem dijkstra_start_zero {g : Graph} {s : Vertex}
    (hcl : ClosedGraph g) (hs : s ∈ keysOf g) :
    ∃ t, dijkstra_with_heap g s = some (Except.ok t) ∧
      lookupA t s = some ((0 : Int) : DVal) := by
  obtain ⟨st, h1, _, _⟩ := runD_closed_ok hcl hs
  have h1' : loopD (measureSt (initSt g s) + 1) (initSt g s) = some (st, none) := h1
  have h0 := loopD_start s _ (initSt g s) (lookupA_initDistances_self g s)
    (Or.inr ⟨rfl, rfl⟩) st none h1'
  exact ⟨st.distances, by simp [dijkstra_with_heap, h1], h0⟩

/-- C2 exercised on a concrete graph with negative edge weights. -/
theorem dijkstra_start_zero_case :
    (ClosedGraph [("A", [("B", -5)]), ("B", [("A", -7)])] ∧
        "A" ∈ keysOf ([("A", [("B", -5)]), ("B", [("A", -7)])] : Graph)) ∧
      ∃ t, dijkstra_with_heap [("A", [("B", -5)]), ("B", [("A", -7)])] "A"
          = some (Except.ok t) ∧ lookupA t "A" = some ((0 : Int) : DVal) :=
  ⟨⟨by decide, by decide⟩, dijkstra_start_zero (by decide) (by decide)⟩

/-- C6: on every finite closed graph (duplicate-free key set, all adjacency
targets present, start present) the loop terminates within the proven fuel
bound with an empty queue; each iteration pops exactly one entry, so the pop
count equals the seed entry plus all pushes; each vertex is visited at most
once; and the pushes are bounded by the edge count, so at most
`edgeCount g + 1` entries ever enter the queue. -/
theorem dijkstra_terminates {g : Graph} {s : Vertex}
    (hcl : ClosedGraph g) (hs : s ∈ keysOf g) (hnd : (keysOf g).Nodup) :
    ∃ st, runD g s = some (st, none) ∧ st.queue = [] ∧
      st.pops = st.pushes + 1 ∧ st.pushes ≤ edgeCount g ∧ st.visited.Nodup := by
  obtain ⟨st, h1, hq, hw⟩ := runD_closed_ok hcl hs
  refine ⟨st, h1, hq, ?_, ?_, hw.visNodup⟩
  · have hacct := hw.acct
    rw [hq] at hacct
    simpa using hacct
  · have hpb := hw.pushBound
    have heq : unvisitedDeg g [] = edgeCount g := unvisitedDeg_nil_eq hnd
    omega

/-- C6 exercised on the spec's sample graph. -/
theorem dijkstra_terminates_case :
    (ClosedGraph [("A", [("B", 5), ("C", 10)]), ("B", [("A", 5), ("D", 3)]), ("C", [("A", 10), ("D", 2)]), ("D", [("B", 3), ("C", 2), ("E", 4)]), ("E", [("D", 4)])] ∧
        "A" ∈ keysOf ([("A", [("B", 5), ("C", 10)]), ("B", [("A", 5), ("D", 3)]), ("C", [("A", 10), ("D", 2)]), ("D", [("B", 3), ("C", 2), ("E", 4)]), ("E", [("D", 4)])] : Graph) ∧
        (keysOf ([("A", [("B", 5), ("C", 10)]), ("B", [("A", 5), ("D", 3)]), ("C", [("A", 10), ("D", 2)]), ("D", [("B", 3), ("C", 2), ("E", 4)]), ("E", [("D", 4)])] : Graph)).Nodup) ∧
      ∃ st, runD [("A", [("B", 5), ("C", 10)]), ("B", [("A", 5), ("D", 3)]), ("C", [("A", 10), ("D", 2)]), ("D", [("B", 3), ("C", 2), ("E", 4)]), ("E", [("D", 4)])] "A" = some (st, none) ∧
        st.queue = [] ∧ st.pops = st.pushes + 1 ∧
        st.pushes ≤ edgeCount [("A", [("B", 5), ("C", 10)]), ("B", [("A", 5), ("D", 3)]), ("C", [("A", 10), ("D", 2)]), ("D", [("B", 3), ("C", 2), ("E", 4)]), ("E", [("D", 4)])] ∧
        st.visited.Nodup :=
  ⟨⟨by decide, by decide, by decide⟩,
    dijkstra_terminates (by decide) (by decide) (by decide)⟩

/-- C5: from any state of a run in which a vertex `v` is already in the
visited set — in particular from the state just after any vertex is added —
the rest of the run never changes `v`'s distance-table entry again, never
adds any already-visited vertex to the visited set a second time (the list
grows only by fresh vertices), and preserves duplicate-freeness of the
visited list.  This holds for every graph and all weights, so in particular
throughout every run on a non-negative-weight closed graph. -/
theorem dijkstra_visited_final :
    ∀ (fuel : Nat) (st st' : St) (e? : Option PyErr),
      loopD fuel st = some (st', e?) →
      (∃ newvis, st'.visited = newvis ++ st.visited ∧ ∀ v ∈ st.visited, v ∉ newvis) ∧
      (st.visited.Nodup → st'.visited.Nodup) ∧
      (∀ v ∈ st.visited, lookupA st'.distances v = lookupA st.distances v) := by
  intro fuel
  induction fuel with
  | zero => intro st st' e? h; simp [loopD] at h
  | succ n ih =>
    intro st st' e? h
    rcases hpop : popMinQ st.queue with _ | ep
    · simp [loopD, hpop] at h
      rw [← h.1]
      exact ⟨⟨[], by simp, by simp⟩, fun hn => hn, fun v _ => rfl⟩
    · obtain ⟨e, q'⟩ := ep
      by_cases hvv : e.2 ∈ st.visited
      · simp [loopD, hpop, hvv] at h
        exact ih { st with queue := q', pops := st.pops + 1 } st' e? h
      · rcases hlook : lookupA st.graph e.2 with _ | adj
        · simp [loopD, hpop, hvv, hlook] at h
          rw [← h.1]
          refine ⟨⟨[e.2], by simp, ?_⟩, ?_, fun v _ => rfl⟩
          · intro v hvm
            simp
            exact fun hc => hvv (hc ▸ hvm)
          · intro hn
            exact List.nodup_cons.2 ⟨hvv, hn⟩
        · cases hrel : relaxAll e.2 e.1 adj ({ st with queue := q', pops := st.pops + 1, visited := e.2 :: st.visited }) with
          | error p =>
            obtain ⟨u, stE⟩ := p
            have hout3 : relaxOut (relaxAll e.2 e.1 adj { st with queue := q', pops := st.pops + 1, visited := e.2 :: st.visited }) = stE := by
              rw [hrel]; rfl
            obtain ⟨_, cv, _, _⟩ := relaxAll_const e.2 e.1 adj
              { st with queue := q', pops := st.pops + 1, visited := e.2 :: st.visited }
            rw [hout3] at cv
            have cv' : stE.visited = e.2 :: st.visited := cv
            simp [loopD, hpop, hvv, hlook, hrel] at h
            rw [← h.1]
            refine ⟨⟨[e.2], by simpa using cv', ?_⟩, ?_, ?_⟩
            · intro v hvm
              simp
              exact fun hc => hvv (hc ▸ hvm)
            · intro hn
              rw [cv']
              exact List.nodup_cons.2 ⟨hvv, hn⟩
            · intro v hvm
              have hpres := relaxAll_visited_dist e.2 e.1 adj
                { st with queue := q', pops := st.pops + 1, visited := e.2 :: st.visited } v
                (List.mem_cons_of_mem _ hvm)
              rw [hout3] at hpres
              exact hpres
          | ok st₃ =>
            have hout3 : relaxOut (relaxAll e.2 e.1 adj { st with queue := q', pops := st.pops + 1, visited := e.2 :: st.visited }) = st₃ := by
              rw [hrel]; rfl
            obtain ⟨_, cv, _, _⟩ := relaxAll_const e.2 e.1 adj
              { st with queue := q', pops := st.pops + 1, visited := e.2 :: st.visited }
            rw [hout3] at cv
            have cv' : st₃.visited = e.2 :: st.visited := cv
            simp [loopD, hpop, hvv, hlook, hrel] at h
            obtain ⟨⟨newvis, hnv1, hnv2⟩, hnodup, hdist⟩ := ih st₃ st' e? h
            rw [cv'] at hnv1 hnv2 hnodup
            refine ⟨⟨newvis ++ [e.2], ?_, ?_⟩, ?_, ?_⟩
            · rw [hnv1]; simp
            · intro v hvm
              rw [List.mem_append]
              push_neg
              refine ⟨hnv2 v (List.mem_cons_of_mem _ hvm), ?_⟩
              simp
              exact fun hc => hvv (hc ▸ hvm)
            · intro hn
              exact hnodup (List.nodup_cons.2 ⟨hvv, hn⟩)
            · intro v hvm
              have hpres := relaxAll_visited_dist e.2 e.1 adj
                { st with queue := q', pops := st.pops + 1, visited := e.2 :: st.visited } v
                (List.mem_cons_of_mem _ hvm)
              rw [hout3] at hpres
              rw [hdist v (by rw [cv']; exact List.mem_cons_of_mem _ hvm), hpres]

/-- C5 exercised on a concrete run suffix with a visited vertex. -/
theorem dijkstra_visited_final_case :
    loopD 1 (St.mk [] [("A", ((0 : Int) : DVal))] [] ["A"] 0 0 [])
        = some (St.mk [] [("A", ((0 : Int) : DVal))] [] ["A"] 0 0 [], none) ∧
      ((∃ newvis, (St.mk ([] : Graph) [("A", ((0 : Int) : DVal))] [] ["A"] 0 0 []).visited
          = newvis ++ ["A"] ∧ ∀ v ∈ ["A"], v ∉ newvis) ∧
        (["A"].Nodup → (St.mk ([] : Graph) [("A", ((0 : Int) : DVal))] [] ["A"] 0 0 []).visited.Nodup) ∧
        (∀ v ∈ ["A"], lookupA (St.mk ([] : Graph) [("A", ((0 : Int) : DVal))] [] ["A"] 0 0 []).distances v
          = lookupA [("A", ((0 : Int) : DVal))] v)) := by
  have h : loopD 1 (St.mk [] [("A", ((0 : Int) : DVal))] [] ["A"] 0 0 [])
      = some (St.mk [] [("A", ((0 : Int) : DVal))] [] ["A"] 0 0 [], none) := by rfl
  exact ⟨h, dijkstra_visited_final 1 _ _ _ h⟩

theorem relaxAll_trace (v : Vertex) (d : Int) :
    ∀ (l : List (Vertex × Int)) (st : St),
      (∀ st₃, relaxAll v d l st = Except.ok st₃ →
        ∃ tr, st₃.examined = st.examined ++ tr ∧ ∀ p ∈ tr, p.2 ∈ keysOf st.distances) ∧
      (∀ u stE, relaxAll v d l st = Except.error (u, stE) →
        u ∉ keysOf st.distances ∧
        ∃ tr, stE.examined = st.examined ++ tr ++ [(v, u)] ∧
          ∀ p ∈ tr, p.2 ∈ keysOf st.distances) := by
  intro l
  induction l with
  | nil =>
    intro st
    constructor
    · intro st₃ h
      simp [relaxAll] at h
      exact ⟨[], by simp [← h], by simp⟩
    · intro u stE h
      simp [relaxAll] at h
  | cons e rest ih =>
    intro st
    obtain ⟨u', w⟩ := e
    by_cases hu : u' ∈ st.visited
    · constructor
      · intro st₃ h
        rw [relaxAll] at h
        rw [if_pos hu] at h
        exact (ih st).1 st₃ h
      · intro u stE h
        rw [relaxAll] at h
        rw [if_pos hu] at h
        exact (ih st).2 u stE h
    · rcases hdu : lookupA st.distances u' with _ | du
      · have hk : u' ∉ keysOf st.distances := (lookupA_eq_none _ _).1 hdu
        constructor
        · intro st₃ h
          simp [relaxAll, hu, hdu] at h
        · intro u stE h
          simp [relaxAll, hu, hdu] at h
          obtain ⟨h1, h2⟩ := h
          refine ⟨by rw [← h1]; exact hk, ⟨[], ?_, by simp⟩⟩
          rw [← h2, ← h1]
          simp
      · have hk : u' ∈ keysOf st.distances := mem_keysOf_of_lookupA hdu
        by_cases himp : ((d : DVal) + (w : DVal) < du)
        · have ihp := ih { st with
              distances := setA st.distances u' ((d + w : Int) : DVal),
              queue := (d + w, u') :: st.queue,
              pushes := st.pushes + 1,
              examined := st.examined ++ [(v, u')] }
          have hkeys : keysOf (setA st.distances u' ((d + w : Int) : DVal))
              = keysOf st.distances := keysOf_setA_of_mem _ hk
          constructor
          · intro st₃ h
            have h' : relaxAll v d rest { st with
                distances := setA st.distances u' ((d + w : Int) : DVal),
                queue := (d + w, u') :: st.queue,
                pushes := st.pushes + 1,
                examined := st.examined ++ [(v, u')] } = Except.ok st₃ := by
              rw [relaxAll, if_neg hu, hdu] at h
              simpa [himp] using h
            obtain ⟨tr, ht1, ht2⟩ := ihp.1 st₃ h'
            refine ⟨(v, u') :: tr, ?_, ?_⟩
            · rw [ht1]; simp
            · intro p hp
              rcases List.mem_cons.1 hp with hp | hp
              · rw [hp]; exact hk
              · have := ht2 p hp
                rw [show keysOf ({ st with
                    distances := setA st.distances u' ((d + w : Int) : DVal),
                    queue := (d + w, u') :: st.queue,
                    pushes := st.pushes + 1,
                    examined := st.examined ++ [(v, u')] } : St).distances
                  = keysOf st.distances from hkeys] at this
                exact this
          · intro u stE h
            have h' : relaxAll v d rest { st with
                distances := setA st.distances u' ((d + w : Int) : DVal),
                queue := (d + w, u') :: st.queue,
                pushes := st.pushes + 1,
                examined := st.examined ++ [(v, u')] } = Except.error (u, stE) := by
              rw [relaxAll, if_neg hu, hdu] at h
              simpa [himp] using h
            obtain ⟨hu1, tr, ht1, ht2⟩ := ihp.2 u stE h'
            refine ⟨?_, ⟨(v, u') :: tr, ?_, ?_⟩⟩
            · rw [show keysOf ({ st with
                  distances := setA st.distances u' ((d + w : Int) : DVal),
                  queue := (d + w, u') :: st.queue,
                  pushes := st.pushes + 1,
                  examined := st.examined ++ [(v, u')] } : St).distances
                = keysOf st.distances from hkeys] at hu1
              exact hu1
            · rw [ht1]; simp
            · intro p hp
              rcases List.mem_cons.1 hp with hp | hp
              · rw [hp]; exact hk
              · have := ht2 p hp
                rw [show keysOf ({ st with
                    distances := setA st.distances u' ((d + w : Int) : DVal),
                    queue := (d + w, u') :: st.queue,
                    pushes := st.pushes + 1,
                    examined := st.examined ++ [(v, u')] } : St).distances
                  = keysOf st.distances from hkeys] at this
                exact this
        · have ihp := ih { st with examined := st.examined ++ [(v, u')] }
          constructor
          · intro st₃ h
            have h' : relaxAll v d rest { st with examined := st.examined ++ [(v, u')] }
                = Except.ok st₃ := by
              rw [relaxAll, if_neg hu, hdu] at h
              simpa [himp] using h
            obtain ⟨tr, ht1, ht2⟩ := ihp.1 st₃ h'
            refine ⟨(v, u') :: tr, by rw [ht1]; simp, ?_⟩
            intro p hp
            rcases List.mem_cons.1 hp with hp | hp
            · rw [hp]; exact hk
            · exact ht2 p hp
          · intro u stE h
            have h' : relaxAll v d rest { st with examined := st.examined ++ [(v, u')] }
                = Except.error (u, stE) := by
              rw [relaxAll, if_neg hu, hdu] at h
              simpa [himp] using h
            obtain ⟨hu1, tr, ht1, ht2⟩ := ihp.2 u stE h'
            refine ⟨hu1, ⟨(v, u') :: tr, by rw [ht1]; simp, ?_⟩⟩
            intro p hp
            rcases List.mem_cons.1 hp with hp | hp
            · rw [hp]; exact hk
            · exact ht2 p hp

theorem loopD_trace : ∀ (fuel : Nat) (st st' : St) (e? : Option PyErr),
    loopD fuel st = some (st', e?) →
    (∀ p ∈ st.examined, p.2 ∈ keysOf st.distances) →
    keysOf st'.distances = keysOf st.distances ∧
    ((e? = none ∧ ∀ p ∈ st'.examined, p.2 ∈ keysOf st.distances) ∨
     (∃ u, e? = some (PyErr.keyError u) ∧
       ((∃ pre v', st'.examined = pre ++ [(v', u)] ∧ u ∉ keysOf st.distances ∧
           ∀ p ∈ pre, p.2 ∈ keysOf st.distances) ∨
        (u ∉ keysOf st.graph ∧ ∀ p ∈ st'.examined, p.2 ∈ keysOf st.distances)))) := by
  intro fuel
  induction fuel with
  | zero => intro st st' e? h; simp [loopD] at h
  | succ n ih =>
    intro st st' e? h hgood
    rcases hpop : popMinQ st.queue with _ | ep
    · simp [loopD, hpop] at h
      rw [← h.1]
      exact ⟨rfl, Or.inl ⟨h.2.symm, hgood⟩⟩
    · obtain ⟨e, q'⟩ := ep
      by_cases hvv : e.2 ∈ st.visited
      · simp [loopD, hpop, hvv] at h
        exact ih { st with queue := q', pops := st.pops + 1 } st' e? h hgood
      · rcases hlook : lookupA st.graph e.2 with _ | adj
        · simp [loopD, hpop, hvv, hlook] at h
          obtain ⟨h1, h2⟩ := h
          rw [← h1]
          refine ⟨rfl, Or.inr ⟨e.2, h2.symm, Or.inr ⟨(lookupA_eq_none _ _).1 hlook, hgood⟩⟩⟩
        · cases hrel : relaxAll e.2 e.1 adj ({ st with queue := q', pops := st.pops + 1, visited := e.2 :: st.visited }) with
          | error p =>
            obtain ⟨u, stE⟩ := p
            have htr := (relaxAll_trace e.2 e.1 adj
              { st with queue := q', pops := st.pops + 1, visited := e.2 :: st.visited }).2 u stE hrel
            obtain ⟨hu1, tr, ht1, ht2⟩ := htr
            have hout3 : relaxOut (relaxAll e.2 e.1 adj { st with queue := q', pops := st.pops + 1, visited := e.2 :: st.visited }) = stE := by
              rw [hrel]; rfl
            obtain ⟨_, _, _, ck⟩ := relaxAll_const e.2 e.1 adj
              { st with queue := q', pops := st.pops + 1, visited := e.2 :: st.visited }
            rw [hout3] at ck
            have ck' : keysOf stE.distances = keysOf st.distances := ck
            simp [loopD, hpop, hvv, hlook, hrel] at h
            obtain ⟨h1, h2⟩ := h
            rw [← h1]
            refine ⟨ck', Or.inr ⟨u, h2.symm, Or.inl ⟨st.examined ++ tr, e.2, ?_, hu1, ?_⟩⟩⟩
            · rw [ht1]
            · intro p hp
              rcases List.mem_append.1 hp with hp | hp
              · exact hgood p hp
              · exact ht2 p hp
          | ok st₃ =>
            have htr := (relaxAll_trace e.2 e.1 adj
              { st with queue := q', pops := st.pops + 1, visited := e.2 :: st.visited }).1 st₃ hrel
            obtain ⟨tr, ht1, ht2⟩ := htr
            have hout3 : relaxOut (relaxAll e.2 e.1 adj { st with queue := q', pops := st.pops + 1, visited := e.2 :: st.visited }) = st₃ := by
              rw [hrel]; rfl
            obtain ⟨cg, _, _, ck⟩ := relaxAll_const e.2 e.1 adj
              { st with queue := q', pops := st.pops + 1, visited := e.2 :: st.visited }
            rw [hout3] at ck cg
            have ck' : keysOf st₃.distances = keysOf st.distances := ck
            have cg' : st₃.graph = st.graph := cg
            have ht1' : st₃.examined = st.examined ++ tr := ht1
            simp [loopD, hpop, hvv, hlook, hrel] at h
            have hgood3 : ∀ p ∈ st₃.examined, p.2 ∈ keysOf st₃.distances := by
              intro p hp
              rw [ht1'] at hp
              rw [ck']
              rcases List.mem_append.1 hp with hp | hp
              · exact hgood p hp
              · exact ht2 p hp
            obtain ⟨ihk, ihd⟩ := ih st₃ st' e? h hgood3
            refine ⟨by rw [ihk, ck'], ?_⟩
            rcases ihd with ⟨he, hall⟩ | ⟨u, he, hcase⟩
            · exact Or.inl ⟨he, fun p hp => by rw [← ck']; exact hall p hp⟩
            · refine Or.inr ⟨u, he, ?_⟩
              rcases hcase with ⟨pre, v', hp1, hp2, hp3⟩ | ⟨hg, hall⟩
              · refine Or.inl ⟨pre, v', hp1, by rw [← ck']; exact hp2,
                  fun p hp => by rw [← ck']; exact hp3 p hp⟩
              · refine Or.inr ⟨by rw [← cg']; exact hg,
                  fun p hp => by rw [← ck']; exact hall p hp⟩

theorem mem_keysOf_initDistances {g : Graph} {s u : Vertex} :
    u ∈ keysOf (initDistances g s) ↔ u ∈ keysOf g ∨ u = s := by
  by_cases hs : s ∈ keysOf g
  · rw [keysOf_initDistances_of_mem hs]
    constructor
    · exact Or.inl
    · rintro (h | h)
      · exact h
      · rw [h]; exact hs
  · rw [keysOf_initDistances_of_not_mem hs]
    simp

/-- C10: if at any point a run passes the visited check for a relaxation edge
`(v, u)` whose target `u` is neither a graph key nor the start vertex, the run
raises the uncaught Python `KeyError(u)` at the `distances[neighbor]` lookup —
the first such edge examined — and `dijkstra_with_heap` returns no table; and
no such vertex is ever auto-registered in the distance table at the infinite
sentinel (or any other value). -/
theorem dijkstra_missing_neighbor_keyerror {g : Graph} {s : Vertex} {st : St}
    {e? : Option PyErr} (hrun : runD g s = some (st, e?)) :
    (∀ v u, (v, u) ∈ st.examined → u ∉ keysOf g → u ≠ s →
      e? = some (PyErr.keyError u) ∧
        dijkstra_with_heap g s = some (Except.error (PyErr.keyError u))) ∧
    (∀ u, u ∉ keysOf g → u ≠ s → u ∉ keysOf st.distances) := by
  have hrun' : loopD (measureSt (initSt g s) + 1) (initSt g s) = some (st, e?) := hrun
  have hgood0 : ∀ p ∈ (initSt g s).examined, p.2 ∈ keysOf (initSt g s).distances := by
    intro p hp
    simp [initSt] at hp
  obtain ⟨hkeys, hdisj⟩ := loopD_trace _ _ _ _ hrun' hgood0
  have hkeys' : keysOf st.distances = keysOf (initDistances g s) := hkeys
  constructor
  · intro v u hmem hug hus
    have hunotin : u ∉ keysOf (initDistances g s) := by
      rw [mem_keysOf_initDistances]
      rintro (h | h)
      · exact hug h
      · exact hus h
    rcases hdisj with ⟨_, hall⟩ | ⟨u₀, he, hcase⟩
    · exact absurd (hall (v, u) hmem) hunotin
    · rcases hcase with ⟨pre, v', hp1, hp2, hp3⟩ | ⟨hg0, hall⟩
      · have hmem' : (v, u) ∈ pre ++ [(v', u₀)] := by rw [← hp1]; exact hmem
        rcases List.mem_append.1 hmem' with hin | hin
        · exact absurd (hp3 _ hin) hunotin
        · simp at hin
          obtain ⟨_, hu⟩ := hin
          subst hu
          exact ⟨he, by simp [dijkstra_with_heap, hrun, he]⟩
      · exact absurd (hall (v, u) hmem) hunotin
  · intro u hug hus
    rw [hkeys', mem_keysOf_initDistances]
    rintro (h | h)
    · exact hug h
    · exact hus h

/-- C10 exercised on a concrete open graph whose single edge targets a vertex
that is not a graph key. -/
theorem dijkstra_missing_neighbor_keyerror_case :
    (runD [("A", [("B", 1)])] "A" = some (St.mk [("A", [("B", 1)])] [("A", ((0 : Int) : DVal))] [] ["A"] 0 1 [("A", "B")], some (PyErr.keyError "B")) ∧
        ("A", "B") ∈ [("A", "B")] ∧ "B" ∉ keysOf ([("A", [("B", 1)])] : Graph) ∧ "B" ≠ "A") ∧
      some (PyErr.keyError "B") = some (PyErr.keyError "B") ∧
        dijkstra_with_heap [("A", [("B", 1)])] "A" = some (Except.error (PyErr.keyError "B")) := by
  have h : runD [("A", [("B", 1)])] "A" = some (St.mk [("A", [("B", 1)])] [("A", ((0 : Int) : DVal))] [] ["A"] 0 1 [("A", "B")], some (PyErr.keyError "B")) := by rfl
  refine ⟨⟨h, by decide, by decide, by decide⟩, ?_⟩
  exact (dijkstra_missing_neighbor_keyerror h).1 "A" "B" (by decide) (by decide) (by decide)

theorem dval_cases (x : DVal) : x = ⊤ ∨ ∃ d : Int, x = (d : DVal) := by
  rcases x with _ | d
  · exact Or.inl rfl
  · exact Or.inr ⟨d, rfl⟩

theorem tblVal_coe {t : DTable} {v : Vertex} {d : Int} (h : tblVal t v = (d : DVal)) :
    lookupA t v = some ((d : Int) : DVal) := by
  unfold tblVal at h
  rcases hl : lookupA t v with _ | x
  · rw [hl] at h
    simp at h
  · rw [hl] at h
    simp at h
    rw [h]

theorem tblVal_of_lookup {t : DTable} {v : Vertex} {x : DVal}
    (h : lookupA t v = some x) : tblVal t v = x := by
  unfold tblVal
  rw [h]
  rfl

theorem isPath_nonneg {g : Graph} (hnn : NonnegGraph g) :
    ∀ {a b : Vertex} {t : Int}, IsPath g a b t → 0 ≤ t := by
  intro a b t h
  induction h with
  | nil _ => exact le_refl 0
  | @cons a b c w t he hp ih =>
    obtain ⟨adj, hadj, hmem⟩ := he
    have hw := hnn _ (lookupA_mem hadj) _ hmem
    omega

theorem isPath_trans {g : Graph} {a b c : Vertex} {t₁ t₂ : Int}
    (h1 : IsPath g a b t₁) : IsPath g b c t₂ → IsPath g a c (t₁ + t₂) := by
  induction h1 with
  | nil _ =>
    intro h2
    simpa using h2
  | @cons a x b w t he hp ih =>
    intro h2
    rw [add_assoc]
    exact IsPath.cons he (ih h2)

theorem isPath_snoc {g : Graph} {a b c : Vertex} {t w : Int}
    (h : IsPath g a b t) (he : EdgeOf g b c w) : IsPath g a c (t + w) :=
  isPath_trans h (by simpa using IsPath.cons he (IsPath.nil c))

theorem isPath_first_exit (g : Graph) (V : List Vertex) :
    ∀ {s v : Vertex} {t : Int}, IsPath g s v t → s ∈ V → v ∉ V →
      ∃ x y w t₁ t₂, x ∈ V ∧ y ∉ V ∧ EdgeOf g x y w ∧
        IsPath g s x t₁ ∧ IsPath g y v t₂ ∧ t = t₁ + w + t₂ := by
  intro s v t h
  induction h with
  | nil a => intro ha hna; exact absurd ha hna
  | @cons a b c w t' he hp ih =>
    intro ha hnv
    by_cases hb : b ∈ V
    · obtain ⟨x, y, w', t₁, t₂, hx, hy, hxy, hp1, hp2, ht⟩ := ih hb hnv
      exact ⟨x, y, w', w + t₁, t₂, hx, hy, hxy, IsPath.cons he hp1, hp2, by omega⟩
    · exact ⟨a, b, w, 0, t', ha, hb, he, IsPath.nil a, hp, by omega⟩

theorem isPath_end_mem {g : Graph} (hcl : ClosedGraph g) :
    ∀ {a v : Vertex} {t : Int}, IsPath g a v t → a ∈ keysOf g → v ∈ keysOf g := by
  intro a v t h
  induction h with
  | nil _ => exact id
  | @cons a b c w t' he hp ih =>
    intro _
    obtain ⟨adj, hadj, hmem⟩ := he
    exact ih (hcl _ (lookupA_mem hadj) _ hmem)

theorem tblVal_initDistances_self (g : Graph) (s : Vertex) :
    tblVal (initDistances g s) s = ((0 : Int) : DVal) :=
  tblVal_of_lookup (lookupA_initDistances_self g s)

theorem tblVal_initDistances_ne (g : Graph) {s v : Vertex} (h : v ≠ s) :
    tblVal (initDistances g s) v = ⊤ := by
  unfold tblVal
  rw [lookupA_initDistances_ne g h]
  by_cases hm : v ∈ keysOf g <;> simp [hm]

theorem sInv_init {g : Graph} {s : Vertex} (hs : s ∈ keysOf g) :
    SInv g s (initSt g s) := by
  have hval : ∀ u : Vertex, ∀ du : Int,
      tblVal (initDistances g s) u = (du : DVal) → u = s ∧ du = 0 := by
    intro u du h
    by_cases hus : u = s
    · subst hus
      rw [tblVal_initDistances_self] at h
      simp at h
      exact ⟨rfl, by omega⟩
    · rw [tblVal_initDistances_ne g hus] at h
      simp at h
  refine ⟨rfl, keysOf_initDistances_of_mem hs, ?_, ?_, ?_, ?_, ?_, ?_, Or.inr ⟨rfl, rfl⟩⟩
  · intro v hv
    simp [initSt] at hv
  · intro v hv
    simp [initSt] at hv
  · intro x hx
    simp [initSt] at hx
  · intro u du h
    obtain ⟨h1, h2⟩ := hval u du h
    rw [h1, h2]
    exact IsPath.nil s
  · intro e he
    simp [initSt] at he
    rw [he]
    refine ⟨IsPath.nil s, hs, ?_⟩
    rw [show tblVal (initSt g s).distances s = ((0 : Int) : DVal) from
      tblVal_initDistances_self g s]
  · intro u hu _ du h
    obtain ⟨h1, h2⟩ := hval u du h
    rw [h1, h2]
    simp [initSt]

theorem tblVal_setA_ne {t : DTable} {u x : Vertex} {val : DVal} (h : x ≠ u) :
    tblVal (setA t u val) x = tblVal t x := by
  unfold tblVal
  rw [lookupA_setA_ne _ _ h]

theorem tblVal_setA_self (t : DTable) (u : Vertex) (val : DVal) :
    tblVal (setA t u val) u = val :=
  tblVal_of_lookup (lookupA_setA_self _ _ _)

theorem tblVal_setA_le {t : DTable} {u : Vertex} {val : DVal}
    (hle : val ≤ tblVal t u) : ∀ x, tblVal (setA t u val) x ≤ tblVal t x := by
  intro x
  by_cases hx : x = u
  · subst hx
    rw [tblVal_setA_self]
    exact hle
  · rw [tblVal_setA_ne hx]

theorem relaxAll_sinv {g : Graph} {s : Vertex} (hcl : ClosedGraph g)
    (v : Vertex) (d : Int) :
    ∀ (l : List (Vertex × Int)) (st : St),
      st.graph = g →
      keysOf st.distances = keysOf g →
      v ∈ st.visited →
      (∀ x ∈ st.visited, x ∈ keysOf g) →
      tblVal st.distances v = (d : DVal) →
      IsPath g s v d →
      (∀ t, IsPath g s v t → d ≤ t) →
      (∀ e ∈ l, EdgeOf g v e.1 e.2) →
      (∀ x ∈ st.visited, ∃ dx : Int, tblVal st.distances x = (dx : DVal) ∧
        IsPath g s x dx ∧ ∀ t, IsPath g s x t → dx ≤ t) →
      (∀ x ∈ st.visited, ∀ u w, EdgeOf g x u w → u ∉ st.visited →
        (x = v ∧ (u, w) ∈ l) ∨ tblVal st.distances u ≤ tblVal st.distances x + (w : DVal)) →
      (∀ u : Vertex, ∀ du : Int, tblVal st.distances u = (du : DVal) → IsPath g s u du) →
      (∀ e ∈ st.queue, IsPath g s e.2 e.1 ∧ e.2 ∈ keysOf g ∧
        tblVal st.distances e.2 ≤ (e.1 : DVal)) →
      (∀ u ∈ keysOf g, u ∉ st.visited → ∀ du : Int,
        tblVal st.distances u = (du : DVal) → (du, u) ∈ st.queue) →
      ∃ st₃, relaxAll v d l st = Except.ok st₃ ∧
        st₃.graph = st.graph ∧ keysOf st₃.distances = keysOf st.distances ∧
        st₃.visited = st.visited ∧
        (∀ x ∈ st.visited, ∃ dx : Int, tblVal st₃.distances x = (dx : DVal) ∧
          IsPath g s x dx ∧ ∀ t, IsPath g s x t → dx ≤ t) ∧
        (∀ x ∈ st.visited, ∀ u w, EdgeOf g x u w → u ∉ st.visited →
          tblVal st₃.distances u ≤ tblVal st₃.distances x + (w : DVal)) ∧
        (∀ u : Vertex, ∀ du : Int, tblVal st₃.distances u = (du : DVal) → IsPath g s u du) ∧
        (∀ e ∈ st₃.queue, IsPath g s e.2 e.1 ∧ e.2 ∈ keysOf g ∧
          tblVal st₃.distances e.2 ≤ (e.1 : DVal)) ∧
        (∀ u ∈ keysOf g, u ∉ st.visited → ∀ du : Int,
          tblVal st₃.distances u = (du : DVal) → (du, u) ∈ st₃.queue) := by
  intro l
  induction l with
  | nil =>
    intro st hgr hkd hvv hvk hdv hpv hmv _ hvf hrel hfin hqe hqc
    refine ⟨st, rfl, rfl, rfl, rfl, hvf, ?_, hfin, hqe, hqc⟩
    intro x hx u w he hu
    rcases hrel x hx u w he hu with ⟨_, hmem⟩ | hsat
    · simp at hmem
    · exact hsat
  | cons e rest ih =>
    intro st hgr hkd hvv hvk hdv hpv hmv hedges hvf hrel hfin hqe hqc
    obtain ⟨u, w⟩ := e
    have heuw : EdgeOf g v u w := hedges (u, w) (List.mem_cons_self _ _)
    by_cases hu : u ∈ st.visited
    · -- visited neighbor: skipped by the code
      have hrel' : ∀ x ∈ st.visited, ∀ u₀ w₀, EdgeOf g x u₀ w₀ → u₀ ∉ st.visited →
          (x = v ∧ (u₀, w₀) ∈ rest) ∨
            tblVal st.distances u₀ ≤ tblVal st.distances x + (w₀ : DVal) := by
        intro x hx u₀ w₀ he₀ hu₀
        rcases hrel x hx u₀ w₀ he₀ hu₀ with ⟨hxv, hmem⟩ | hsat
        · rcases List.mem_cons.1 hmem with hmem | hmem
          · exfalso
            rw [Prod.mk.injEq] at hmem
            rw [hmem.1] at hu₀
            exact hu₀ hu
          · exact Or.inl ⟨hxv, hmem⟩
        · exact Or.inr hsat
      obtain ⟨st₃, h1, hrest⟩ := ih st hgr hkd hvv hvk hdv hpv hmv
        (fun e he => hedges e (List.mem_cons_of_mem _ he)) hvf hrel' hfin hqe hqc
      exact ⟨st₃, by rw [relaxAll, if_pos hu]; exact h1, hrest⟩
    · -- unvisited neighbor: the code looks it up and possibly relaxes
      have hukeys : u ∈ keysOf g := by
        obtain ⟨adj, hadj, hmem⟩ := heuw
        exact hcl _ (lookupA_mem hadj) _ hmem
      have hukeysd : u ∈ keysOf st.distances := by rw [hkd]; exact hukeys
      obtain ⟨du, hdu⟩ := lookupA_isSome_of_mem hukeysd
      have htu : tblVal st.distances u = du := tblVal_of_lookup hdu
      have hvne : v ≠ u := fun h => hu (h ▸ hvv)
      by_cases himp : ((d : DVal) + (w : DVal) < du)
      · -- improvement: set distances[u] and push
        have hsetle : ((d + w : Int) : DVal) ≤ tblVal st.distances u := by
          rw [htu]
          push_cast
          exact le_of_lt himp
        have hkeq : keysOf (setA st.distances u ((d + w : Int) : DVal))
            = keysOf st.distances := keysOf_setA_of_mem _ hukeysd
        have htu' : tblVal (setA st.distances u ((d + w : Int) : DVal)) u
            = ((d + w : Int) : DVal) := tblVal_setA_self _ _ _
        have hne' : ∀ x, x ≠ u →
            tblVal (setA st.distances u ((d + w : Int) : DVal)) x = tblVal st.distances x :=
          fun x hx => tblVal_setA_ne hx
        have hle' : ∀ x, tblVal (setA st.distances u ((d + w : Int) : DVal)) x
            ≤ tblVal st.distances x := tblVal_setA_le hsetle
        have hpu : IsPath g s u (d + w) := isPath_snoc hpv heuw
        obtain ⟨st₃, h1, h2, h3, h4, h5, h6, h7, h8, h9⟩ := ih
          { st with
            distances := setA st.distances u ((d + w : Int) : DVal),
            queue := (d + w, u) :: st.queue,
            pushes := st.pushes + 1,
            examined := st.examined ++ [(v, u)] }
          hgr (by rw [show keysOf ({ st with
              distances := setA st.distances u ((d + w : Int) : DVal),
              queue := (d + w, u) :: st.queue,
              pushes := st.pushes + 1,
              examined := st.examined ++ [(v, u)] } : St).distances
            = keysOf st.distances from hkeq]; exact hkd)
          hvv hvk
          (by rw [show tblVal ({ st with
              distances := setA st.distances u ((d + w : Int) : DVal),
              queue := (d + w, u) :: st.queue,
              pushes := st.pushes + 1,
              examined := st.examined ++ [(v, u)] } : St).distances v
            = tblVal st.distances v from hne' v hvne]; exact hdv)
          hpv hmv
          (fun e he => hedges e (List.mem_cons_of_mem _ he))
          (by
            intro x hx
            obtain ⟨dx, hx1, hx2, hx3⟩ := hvf x hx
            have hxu : x ≠ u := fun h => hu (h ▸ hx)
            exact ⟨dx, by rw [hne' x hxu]; exact hx1, hx2, hx3⟩)
          (by
            intro x hx u₀ w₀ he₀ hu₀
            have hxu : x ≠ u := fun h => hu (h ▸ hx)
            rcases hrel x hx u₀ w₀ he₀ hu₀ with ⟨hxv, hmem⟩ | hsat
            · rcases List.mem_cons.1 hmem with hmem | hmem
              · -- the freshly relaxed edge is now satisfied
                right
                rw [Prod.mk.injEq] at hmem
                obtain ⟨huu, hww⟩ := hmem
                subst huu hww
                rw [htu', hne' x hxu, hxv, hdv]
                push_cast
                exact le_refl _
              · exact Or.inl ⟨hxv, hmem⟩
            · right
              calc tblVal (setA st.distances u ((d + w : Int) : DVal)) u₀
                  ≤ tblVal st.distances u₀ := hle' u₀
                _ ≤ tblVal st.distances x + (w₀ : DVal) := hsat
                _ = tblVal (setA st.distances u ((d + w : Int) : DVal)) x + (w₀ : DVal) := by
                    rw [hne' x hxu])
          (by
            intro u₀ du₀ h₀
            by_cases hu₀ : u₀ = u
            · subst hu₀
              rw [htu'] at h₀
              have hco : d + w = du₀ := by exact_mod_cast h₀
              rw [← hco]
              exact hpu
            · rw [hne' u₀ hu₀] at h₀
              exact hfin u₀ du₀ h₀)
          (by
            intro e he
            rcases List.mem_cons.1 he with he | he
            · rw [he]
              exact ⟨hpu, hukeys, by rw [htu']⟩
            · obtain ⟨he1, he2, he3⟩ := hqe e he
              exact ⟨he1, he2, le_trans (hle' e.2) he3⟩)
          (by
            intro u₀ hu₀k hu₀v du₀ h₀
            by_cases hu₀ : u₀ = u
            · subst hu₀
              rw [htu'] at h₀
              have hco : d + w = du₀ := by exact_mod_cast h₀
              rw [← hco]
              exact List.mem_cons_self _ _
            · rw [hne' u₀ hu₀] at h₀
              exact List.mem_cons_of_mem _ (hqc u₀ hu₀k hu₀v du₀ h₀))
        refine ⟨st₃, ?_, h2, by rw [h3]; exact hkeq, h4, h5, h6, h7, h8, h9⟩
        rw [relaxAll, if_neg hu, hdu]
        simpa [himp] using h1
      · -- no improvement: only the examined trace grows
        have hrel' : ∀ x ∈ st.visited, ∀ u₀ w₀, EdgeOf g x u₀ w₀ → u₀ ∉ st.visited →
            (x = v ∧ (u₀, w₀) ∈ rest) ∨
              tblVal st.distances u₀ ≤ tblVal st.distances x + (w₀ : DVal) := by
          intro x hx u₀ w₀ he₀ hu₀
          rcases hrel x hx u₀ w₀ he₀ hu₀ with ⟨hxv, hmem⟩ | hsat
          · rcases List.mem_cons.1 hmem with hmem | hmem
            · right
              rw [Prod.mk.injEq] at hmem
              obtain ⟨huu, hww⟩ := hmem
              rw [huu, hww, hxv, htu, hdv]
              exact not_lt.1 himp
            · exact Or.inl ⟨hxv, hmem⟩
          · exact Or.inr hsat
        obtain ⟨st₃, h1, hrest⟩ := ih { st with examined := st.examined ++ [(v, u)] }
          hgr hkd hvv hvk hdv hpv hmv
          (fun e he => hedges e (List.mem_cons_of_mem _ he)) hvf hrel' hfin hqe hqc
        refine ⟨st₃, ?_, hrest⟩
        rw [relaxAll, if_neg hu, hdu]
        simpa [himp] using h1

theorem loopD_sinv {g : Graph} {s : Vertex} (hcl : ClosedGraph g) (hnn : NonnegGraph g) :
    ∀ (fuel : Nat) (st : St), SInv g s st →
      ∀ st' e?, loopD fuel st = some (st', e?) →
        e? = none ∧ st'.queue = [] ∧ SInv g s st' := by
  intro fuel
  induction fuel with
  | zero => intro st _ st' e? h; simp [loopD] at h
  | succ n ih =>
    intro st hw st' e? h
    rcases hpop : popMinQ st.queue with _ | ep
    · simp [loopD, hpop] at h
      obtain ⟨h1, h2⟩ := h
      exact ⟨h2.symm, by rw [← h1]; exact popMinQ_eq_none.1 hpop, by rw [← h1]; exact hw⟩
    · obtain ⟨e, q'⟩ := ep
      obtain ⟨hmem, hq', hmin⟩ := popMinQ_some hpop
      have hq'sub : ∀ x ∈ q', x ∈ st.queue := fun x hx => by
        rw [hq'] at hx; exact List.mem_of_mem_erase hx
      by_cases hv : e.2 ∈ st.visited
      · simp [loopD, hpop, hv] at h
        refine ih { st with queue := q', pops := st.pops + 1 } ?_ st' e? h
        refine ⟨hw.graphEq, hw.keysD, hw.visKeys, hw.visFinal, hw.relaxedInv,
          hw.finiteHasPath, fun x hx => hw.queueEntries x (hq'sub x hx), ?_, ?_⟩
        · intro u hu huv du hdu
          have hcv := hw.queueCover u hu huv du hdu
          show (du, u) ∈ q'
          rw [hq']
          refine (List.mem_erase_of_ne ?_).2 hcv
          intro hcontra
          apply huv
          rw [show u = e.2 by rw [← hcontra]]
          exact hv
        · rcases hw.startCase with hsv | ⟨hnil, _⟩
          · exact Or.inl hsv
          · rw [hnil] at hv; simp at hv
      · have hqef := hw.queueEntries e hmem
        obtain ⟨hpe, hekeys, htve⟩ := hqef
        have hfine : ∃ dv : Int, tblVal st.distances e.2 = (dv : DVal) ∧ dv ≤ e.1 := by
          rcases dval_cases (tblVal st.distances e.2) with htop | ⟨dv, hdv⟩
          · rw [htop] at htve
            exact absurd htve (by simp)
          · refine ⟨dv, hdv, ?_⟩
            rw [hdv] at htve
            exact_mod_cast htve
        obtain ⟨dv, hdv, hdvle⟩ := hfine
        have hcov := hw.queueCover e.2 hekeys hv dv hdv
        have hdle : e.1 ≤ dv := hmin (dv, e.2) hcov
        have hdeq : dv = e.1 := le_antisymm hdvle hdle
        have hdv' : tblVal st.distances e.2 = ((e.1 : Int) : DVal) := by
          rw [← hdeq]; exact hdv
        have hminimal : ∀ t, IsPath g s e.2 t → e.1 ≤ t := by
          intro t hp
          rcases hw.startCase with hsv | ⟨hnil, hqq⟩
          · obtain ⟨x, y, w, t₁, t₂, hxV, hyV, hxy, hp1, hp2, ht⟩ :=
              isPath_first_exit g st.visited hp hsv hv
            obtain ⟨dx, hdx, hpx, hmx⟩ := hw.visFinal x hxV
            have hrel := hw.relaxedInv x hxV y w hxy hyV
            rw [hdx] at hrel
            have hyfin : ∃ dy : Int, tblVal st.distances y = (dy : DVal) ∧ dy ≤ dx + w := by
              rcases dval_cases (tblVal st.distances y) with htop | ⟨dy, hdy⟩
              · rw [htop] at hrel
                exfalso
                have hlt : ((dx : DVal) + (w : DVal)) < ⊤ := by
                  exact WithTop.coe_lt_top _
                exact absurd hrel (not_le.2 hlt)
              · refine ⟨dy, hdy, ?_⟩
                rw [hdy] at hrel
                exact_mod_cast hrel
            obtain ⟨dy, hdy, hdyle⟩ := hyfin
            have hykeys : y ∈ keysOf g := by
              obtain ⟨adjx, hadjx, hmemx⟩ := hxy
              exact hcl _ (lookupA_mem hadjx) _ hmemx
            have hycov := hw.queueCover y hykeys hyV dy hdy
            have hdy' : e.1 ≤ dy := hmin (dy, y) hycov
            have hx1 : dx ≤ t₁ := hmx t₁ hp1
            have ht₂ : (0 : Int) ≤ t₂ := isPath_nonneg hnn hp2
            omega
          · rw [hqq] at hmem
            simp at hmem
            rw [hmem]
            exact isPath_nonneg hnn hp
        rcases hlook : lookupA st.graph e.2 with _ | adj
        · exfalso
          rw [hw.graphEq] at hlook
          exact absurd hekeys ((lookupA_eq_none g e.2).1 hlook)
        · have hlookg : lookupA g e.2 = some adj := by rw [← hw.graphEq]; exact hlook
          have hedges : ∀ ev ∈ adj, EdgeOf g e.2 ev.1 ev.2 := by
            intro ev hev
            exact ⟨adj, hlookg, by simpa using hev⟩
          obtain ⟨st₃, hrel, c1, c2, c3, c4, c5, c6, c7, c8⟩ := relaxAll_sinv hcl e.2 e.1 adj
            { st with queue := q', pops := st.pops + 1, visited := e.2 :: st.visited }
            hw.graphEq hw.keysD (List.mem_cons_self _ _)
            (by
              intro x hx
              rcases List.mem_cons.1 hx with hx | hx
              · rw [hx]; exact hekeys
              · exact hw.visKeys x hx)
            hdv' hpe hminimal hedges
            (by
              intro x hx
              rcases List.mem_cons.1 hx with hx | hx
              · exact ⟨e.1, by rw [hx]; exact hdv', by rw [hx]; exact hpe,
                  by rw [hx]; exact hminimal⟩
              · exact hw.visFinal x hx)
            (by
              intro x hx u w he hu
              rcases List.mem_cons.1 hx with hx | hx
              · left
                refine ⟨hx, ?_⟩
                obtain ⟨adj', hadj', hm⟩ := he
                rw [hx] at hadj'
                have hadjeq : adj' = adj := Option.some.inj (hadj'.symm.trans hlookg)
                rw [← hadjeq]
                exact hm
              · right
                exact hw.relaxedInv x hx u w he fun hc => hu (List.mem_cons_of_mem _ hc))
            hw.finiteHasPath
            (fun x hx => hw.queueEntries x (hq'sub x hx))
            (by
              intro u hu huv du hdu
              have hune : u ≠ e.2 := fun hc => huv (by rw [hc]; exact List.mem_cons_self _ _)
              have hcv := hw.queueCover u hu (fun hc => huv (List.mem_cons_of_mem _ hc)) du hdu
              show (du, u) ∈ q'
              rw [hq']
              refine (List.mem_erase_of_ne ?_).2 hcv
              intro hcontra
              apply hune
              rw [← hcontra])
          simp [loopD, hpop, hv, hlook, hrel] at h
          refine ih st₃ ?_ st' e? h
          have c1' : st₃.graph = st.graph := c1
          have c2' : keysOf st₃.distances = keysOf st.distances := c2
          have c3' : st₃.visited = e.2 :: st.visited := c3
          refine ⟨by rw [c1']; exact hw.graphEq, by rw [c2']; exact hw.keysD, ?_, ?_, ?_,
            c6, c7, ?_, ?_⟩
          · intro x hx
            rw [c3'] at hx
            rcases List.mem_cons.1 hx with hx | hx
            · rw [hx]; exact hekeys
            · exact hw.visKeys x hx
          · intro x hx
            rw [c3'] at hx
            exact c4 x hx
          · intro x hx u w he hu
            rw [c3'] at hx hu
            exact c5 x hx u w he hu
          · intro u hu huv du hdu
            rw [c3'] at huv
            exact c8 u hu huv du hdu
          · left
            rw [c3']
            rcases hw.startCase with hsv | ⟨hnil, hqq⟩
            · exact List.mem_cons_of_mem _ hsv
            · rw [hqq] at hmem
              simp at hmem
              rw [show s = e.2 by rw [hmem]]
              exact List.mem_cons_self _ _

theorem runD_sinv {g : Graph} {s : Vertex} (hcl : ClosedGraph g) (hnn : NonnegGraph g)
    (hs : s ∈ keysOf g) :
    ∃ st, runD g s = some (st, none) ∧ st.queue = [] ∧ SInv g s st := by
  obtain ⟨⟨st, e?⟩, hout⟩ := runD_isSome g s
  obtain ⟨h1, h2, h3⟩ := loopD_sinv hcl hnn _ _ (sInv_init hs) st e? hout
  exact ⟨st, by rw [← h1]; exact hout, h2, h3⟩

theorem dijkstra_characterization {g : Graph} {s : Vertex} (hcl : ClosedGraph g)
    (hnn : NonnegGraph g) (hs : s ∈ keysOf g) :
    ∃ st, runD g s = some (st, none) ∧
      dijkstra_with_heap g s = some (Except.ok st.distances) ∧
      keysOf st.distances = keysOf g ∧
      (∀ v, Reachable g s v →
        ∃ d : Int, tblVal st.distances v = (d : DVal) ∧ IsPath g s v d ∧
          ∀ t, IsPath g s v t → d ≤ t) ∧
      (∀ v, ¬ Reachable g s v → tblVal st.distances v = ⊤) := by
  obtain ⟨st, h1, hq, hw⟩ := runD_sinv hcl hnn hs
  refine ⟨st, h1, by simp [dijkstra_with_heap, h1], hw.keysD, ?_, ?_⟩
  · intro v hr
    have hsvis : s ∈ st.visited := by
      rcases hw.startCase with h | ⟨_, hqq⟩
      · exact h
      · rw [hq] at hqq
        exact absurd hqq (by simp)
    by_cases hvvis : v ∈ st.visited
    · exact hw.visFinal v hvvis
    · exfalso
      obtain ⟨t, hp⟩ := hr
      obtain ⟨x, y, w, t₁, t₂, hxV, hyV, hxy, hp1, hp2, ht⟩ :=
        isPath_first_exit g st.visited hp hsvis hvvis
      obtain ⟨dx, hdx, _, _⟩ := hw.visFinal x hxV
      have hrel := hw.relaxedInv x hxV y w hxy hyV
      rw [hdx] at hrel
      have hyfin : ∃ dy : Int, tblVal st.distances y = (dy : DVal) := by
        rcases dval_cases (tblVal st.distances y) with htop | ⟨dy, hdy⟩
        · rw [htop] at hrel
          have hlt : ((dx : DVal) + (w : DVal)) < ⊤ := by
            exact WithTop.coe_lt_top _
          exact absurd hrel (not_le.2 hlt)
        · exact ⟨dy, hdy⟩
      obtain ⟨dy, hdy⟩ := hyfin
      have hykeys : y ∈ keysOf g := by
        obtain ⟨adjx, hadjx, hmemx⟩ := hxy
        exact hcl _ (lookupA_mem hadjx) _ hmemx
      have hycov := hw.queueCover y hykeys hyV dy hdy
      rw [hq] at hycov
      simp at hycov
  · intro v hr
    rcases dval_cases (tblVal st.distances v) with htop | ⟨dvv, hdvv⟩
    · exact htop
    · exact absurd ⟨dvv, hw.finiteHasPath v dvv hdvv⟩ hr

/-- C1: on every directed graph with non-negative integer edge weights whose
adjacency lists only mention graph keys, and every start vertex present in
the graph, the run completes and the returned table assigns to every vertex
`v` reachable from `start` a value that is the weight of an actual directed
path from `start` to `v` and a lower bound of all such path weights — the
minimum total edge weight over all directed paths. -/
theorem dijkstra_shortest_paths {g : Graph} {s : Vertex} (hcl : ClosedGraph g)
    (hnn : NonnegGraph g) (hs : s ∈ keysOf g) :
    ∃ t, dijkstra_with_heap g s = some (Except.ok t) ∧
      ∀ v, Reachable g s v →
        ∃ d : Int, lookupA t v = some ((d : Int) : DVal) ∧ IsPath g s v d ∧
          ∀ t', IsPath g s v t' → d ≤ t' := by
  obtain ⟨st, _, h2, _, h4, _⟩ := dijkstra_characterization hcl hnn hs
  refine ⟨st.distances, h2, ?_⟩
  intro v hr
  obtain ⟨d, hd, hp, hm⟩ := h4 v hr
  exact ⟨d, tblVal_coe hd, hp, hm⟩

/-- C1 exercised on the spec's sample graph (Scenario 1). -/
theorem dijkstra_shortest_paths_case :
    (ClosedGraph [("A", [("B", 5), ("C", 10)]), ("B", [("A", 5), ("D", 3)]), ("C", [("A", 10), ("D", 2)]), ("D", [("B", 3), ("C", 2), ("E", 4)]), ("E", [("D", 4)])] ∧
        NonnegGraph [("A", [("B", 5), ("C", 10)]), ("B", [("A", 5), ("D", 3)]), ("C", [("A", 10), ("D", 2)]), ("D", [("B", 3), ("C", 2), ("E", 4)]), ("E", [("D", 4)])] ∧
        "A" ∈ keysOf ([("A", [("B", 5), ("C", 10)]), ("B", [("A", 5), ("D", 3)]), ("C", [("A", 10), ("D", 2)]), ("D", [("B", 3), ("C", 2), ("E", 4)]), ("E", [("D", 4)])] : Graph)) ∧
      ∃ t, dijkstra_with_heap [("A", [("B", 5), ("C", 10)]), ("B", [("A", 5), ("D", 3)]), ("C", [("A", 10), ("D", 2)]), ("D", [("B", 3), ("C", 2), ("E", 4)]), ("E", [("D", 4)])] "A" = some (Except.ok t) ∧
        ∀ v, Reachable [("A", [("B", 5), ("C", 10)]), ("B", [("A", 5), ("D", 3)]), ("C", [("A", 10), ("D", 2)]), ("D", [("B", 3), ("C", 2), ("E", 4)]), ("E", [("D", 4)])] "A" v →
          ∃ d : Int, lookupA t v = some ((d : Int) : DVal) ∧
            IsPath [("A", [("B", 5), ("C", 10)]), ("B", [("A", 5), ("D", 3)]), ("C", [("A", 10), ("D", 2)]), ("D", [("B", 3), ("C", 2), ("E", 4)]), ("E", [("D", 4)])] "A" v d ∧
            ∀ t', IsPath [("A", [("B", 5), ("C", 10)]), ("B", [("A", 5), ("D", 3)]), ("C", [("A", 10), ("D", 2)]), ("D", [("B", 3), ("C", 2), ("E", 4)]), ("E", [("D", 4)])] "A" v t' → d ≤ t' :=
  ⟨⟨by decide, by decide, by decide⟩,
    dijkstra_shortest_paths (by decide) (by decide) (by decide)⟩

/-- C4: on every graph with non-negative weights (all adjacency targets graph
keys) and start present, the run completes and the key list of the returned
table equals exactly the key list of the input graph, and every vertex
unreachable from start is present and mapped to the infinite sentinel
`float('infinity')` (`⊤`) — the key is present with the sentinel, not absent. -/
theorem dijkstra_covers_vertex_set {g : Graph} {s : Vertex} (hcl : ClosedGraph g)
    (hnn : NonnegGraph g) (hs : s ∈ keysOf g) :
    ∃ t, dijkstra_with_heap g s = some (Except.ok t) ∧ keysOf t = keysOf g ∧
      ∀ v ∈ keysOf g, ¬ Reachable g s v → lookupA t v = some (⊤ : DVal) := by
  obtain ⟨st, _, h2, h3, _, h5⟩ := dijkstra_characterization hcl hnn hs
  refine ⟨st.distances, h2, h3, ?_⟩
  intro v hvk hr
  have htop := h5 v hr
  have hvk' : v ∈ keysOf st.distances := by rw [h3]; exact hvk
  obtain ⟨x, hx⟩ := lookupA_isSome_of_mem hvk'
  rw [tblVal_of_lookup hx] at htop
  rw [hx, htop]

/-- C4 exercised on the spec's disconnected graph (Scenario 3). -/
theorem dijkstra_covers_vertex_set_case :
    (ClosedGraph [("A", [("B", 1)]), ("B", []), ("C", [])] ∧
        NonnegGraph [("A", [("B", 1)]), ("B", []), ("C", [])] ∧
        "A" ∈ keysOf ([("A", [("B", 1)]), ("B", []), ("C", [])] : Graph)) ∧
      ∃ t, dijkstra_with_heap [("A", [("B", 1)]), ("B", []), ("C", [])] "A"
          = some (Except.ok t) ∧
        keysOf t = keysOf ([("A", [("B", 1)]), ("B", []), ("C", [])] : Graph) ∧
        ∀ v ∈ keysOf ([("A", [("B", 1)]), ("B", []), ("C", [])] : Graph),
          ¬ Reachable [("A", [("B", 1)]), ("B", []), ("C", [])] "A" v →
            lookupA t v = some (⊤ : DVal) :=
  ⟨⟨by decide, by decide, by decide⟩,
    dijkstra_covers_vertex_set (by decide) (by decide) (by decide)⟩

theorem edge_transfer {g : Graph} {a b : Vertex} {w w' : Int} {adjA : Adj}
    (ha : lookupA g a = some adjA) (hb : lookupA adjA b = some w) (hw : w ≤ w') :
    ∀ {x u : Vertex} {wx : Int}, EdgeOf (setA g a (setA adjA b w')) x u wx →
      ∃ w₀, w₀ ≤ wx ∧ EdgeOf g x u w₀ := by
  intro x u wx he
  obtain ⟨adj', hadj', hm⟩ := he
  by_cases hxa : x = a
  · subst hxa
    rw [lookupA_setA_self] at hadj'
    have hadjeq : adj' = setA adjA b w' := (Option.some.inj hadj').symm
    rw [hadjeq] at hm
    rcases mem_setA hm with hm | hm
    · exact ⟨wx, le_refl _, ⟨adjA, ha, hm⟩⟩
    · rw [Prod.mk.injEq] at hm
      obtain ⟨hub, hwx⟩ := hm
      refine ⟨w, by rw [hwx]; exact hw, ⟨adjA, ha, ?_⟩⟩
      rw [hub]
      exact lookupA_mem hb
  · rw [lookupA_setA_ne _ _ hxa] at hadj'
    exact ⟨wx, le_refl _, ⟨adj', hadj', hm⟩⟩

theorem isPath_transfer {g : Graph} {a b : Vertex} {w w' : Int} {adjA : Adj}
    (ha : lookupA g a = some adjA) (hb : lookupA adjA b = some w) (hw : w ≤ w') :
    ∀ {x y : Vertex} {t : Int}, IsPath (setA g a (setA adjA b w')) x y t →
      ∃ t₀, t₀ ≤ t ∧ IsPath g x y t₀ := by
  intro x y t h
  induction h with
  | nil c => exact ⟨0, le_refl _, IsPath.nil c⟩
  | @cons p q r wx t' he hp ih =>
    obtain ⟨t₀, ht₀, hp₀⟩ := ih
    obtain ⟨w₀, hw₀, he₀⟩ := edge_transfer ha hb hw he
    exact ⟨w₀ + t₀, by omega, IsPath.cons he₀ hp₀⟩

theorem bump_closed {g : Graph} {a b : Vertex} {w w' : Int} {adjA : Adj}
    (hcl : ClosedGraph g) (ha : lookupA g a = some adjA)
    (hb : lookupA adjA b = some w) : ClosedGraph (setA g a (setA adjA b w')) := by
  intro p hp ev hev
  have hkeys : keysOf (setA g a (setA adjA b w')) = keysOf g :=
    keysOf_setA_of_mem _ (mem_keysOf_of_lookupA ha)
  rw [hkeys]
  rcases mem_setA hp with hp | hp
  · exact hcl p hp ev hev
  · rw [hp] at hev
    rcases mem_setA hev with hev | hev
    · exact hcl _ (lookupA_mem ha) ev hev
    · rw [hev]
      exact hcl _ (lookupA_mem ha) (b, w) (lookupA_mem hb)

theorem bump_nonneg {g : Graph} {a b : Vertex} {w w' : Int} {adjA : Adj}
    (hnn : NonnegGraph g) (ha : lookupA g a = some adjA)
    (hb : lookupA adjA b = some w) (hw : w ≤ w') :
    NonnegGraph (setA g a (setA adjA b w')) := by
  intro p hp ev hev
  rcases mem_setA hp with hp | hp
  · exact hnn p hp ev hev
  · rw [hp] at hev
    rcases mem_setA hev with hev | hev
    · exact hnn _ (lookupA_mem ha) ev hev
    · rw [hev]
      have h0 : (0 : Int) ≤ w := hnn _ (lookupA_mem ha) (b, w) (lookupA_mem hb)
      show (0 : Int) ≤ w'
      omega

/-- C7: for every non-negative-weight closed graph with start present, every
single edge `a → b` of weight `w`, and every increase of that weight to
`w' ≥ w`: both runs complete, and no vertex's distance in the table computed
on the modified graph is smaller than its distance in the table computed on
the original graph. -/
theorem dijkstra_weight_monotone {g : Graph} {s a b : Vertex} {adjA : Adj} {w w' : Int}
    (hcl : ClosedGraph g) (hnn : NonnegGraph g) (hs : s ∈ keysOf g)
    (ha : lookupA g a = some adjA) (hb : lookupA adjA b = some w) (hw : w ≤ w') :
    ∃ t t', dijkstra_with_heap g s = some (Except.ok t) ∧
      dijkstra_with_heap (setA g a (setA adjA b w')) s = some (Except.ok t') ∧
      ∀ v, tblVal t v ≤ tblVal t' v := by
  have hcl' : ClosedGraph (setA g a (setA adjA b w')) := bump_closed hcl ha hb
  have hnn' : NonnegGraph (setA g a (setA adjA b w')) := bump_nonneg hnn ha hb hw
  have hkeys : keysOf (setA g a (setA adjA b w')) = keysOf g :=
    keysOf_setA_of_mem _ (mem_keysOf_of_lookupA ha)
  have hs' : s ∈ keysOf (setA g a (setA adjA b w')) := by rw [hkeys]; exact hs
  obtain ⟨st, _, h2, _, h4, h5⟩ := dijkstra_characterization hcl hnn hs
  obtain ⟨st', _, h2', _, h4', h5'⟩ := dijkstra_characterization hcl' hnn' hs'
  refine ⟨st.distances, st'.distances, h2, h2', ?_⟩
  intro v
  by_cases hr' : Reachable (setA g a (setA adjA b w')) s v
  · obtain ⟨d', hd', hp', hm'⟩ := h4' v hr'
    obtain ⟨t₀, ht₀, hp₀⟩ := isPath_transfer ha hb hw hp'
    have hr : Reachable g s v := ⟨t₀, hp₀⟩
    obtain ⟨d, hd, hp, hm⟩ := h4 v hr
    rw [hd, hd']
    have hdd : d ≤ d' := le_trans (hm t₀ hp₀) ht₀
    exact_mod_cast hdd
  · rw [h5' v hr']
    exact le_top

/-- C7 exercised on a concrete two-vertex graph with the edge weight raised
from 2 to 5. -/
theorem dijkstra_weight_monotone_case :
    (ClosedGraph [("A", [("B", 2)]), ("B", [])] ∧
        NonnegGraph [("A", [("B", 2)]), ("B", [])] ∧
        "A" ∈ keysOf ([("A", [("B", 2)]), ("B", [])] : Graph) ∧
        lookupA ([("A", [("B", 2)]), ("B", [])] : Graph) "A" = some [("B", 2)] ∧
        lookupA ([("B", 2)] : Adj) "B" = some 2 ∧ (2 : Int) ≤ 5) ∧
      ∃ t t', dijkstra_with_heap [("A", [("B", 2)]), ("B", [])] "A" = some (Except.ok t) ∧
        dijkstra_with_heap (setA [("A", [("B", 2)]), ("B", [])] "A" (setA [("B", 2)] "B" 5)) "A"
          = some (Except.ok t') ∧
        ∀ v, tblVal t v ≤ tblVal t' v := by
  refine ⟨⟨by decide, by decide, by decide, by decide, by decide, by decide⟩, ?_⟩
  exact @dijkstra_weight_monotone [("A", [("B", 2)]), ("B", [])] "A" "A" "B" [("B", 2)] 2 5
    (by decide) (by decide) (by decide) (by decide) (by decide) (by decide)
